import Mathlib

/-! Framed UART parser (`src/main.c`): shallow embedding.

The firmware keeps all of its state in file-scope globals.  They are collected in one
record, `State`, and every C function becomes a function on that record.  Bytes and
cursors are natural numbers; wrap-around of `uint8_t` arithmetic is written `% 256`
where the C code can overflow.  Calls into the HAL (UART transmit, digital output) and
the calls the claims talk about are recorded in an event log.
-/

namespace UartFrame

/-! ## Constants (`#define`s of main.c, HAL pin states) -/

def FRAME_START : Nat := 0xAA
def MAX_PAYLOAD : Nat := 128
def RX_QUEUE_SIZE : Nat := 256
def GPIO_PIN_RESET : Nat := 0
def GPIO_PIN_SET : Nat := 1

/-! ## Observable events -/

/-- Calls that leave a trace: the dispatcher being entered, the response emitter being
entered, one `HAL_UART_Transmit` call (with the bytes it sends) and one
`HAL_GPIO_WritePin(LED_PORT, LED_PIN, state)` call. -/
inductive Event where
  | handle_payload_call (data : List Nat) (len : Nat)
  | send_uart_response_call (s : List Nat)
  | uart_transmit (bytes : List Nat)
  | gpio_write (pinState : Nat)
deriving DecidableEq, Repr

/-- Bytes put on the wire by the events of a log, in order. -/
def txBytes : List Event → List Nat
  | [] => []
  | Event.uart_transmit bs :: es => bs ++ txBytes es
  | _ :: es => txBytes es

/-- Arguments of the `handle_payload` invocations of a log, in order. -/
def handleCalls : List Event → List (List Nat × Nat)
  | [] => []
  | Event.handle_payload_call d n :: es => (d, n) :: handleCalls es
  | _ :: es => handleCalls es

/-- Arguments of the `send_uart_response` invocations of a log, in order. -/
def responses : List Event → List (List Nat)
  | [] => []
  | Event.send_uart_response_call s :: es => s :: responses es
  | _ :: es => responses es

/-- Pin states written by the `HAL_GPIO_WritePin` calls of a log, in order. -/
def gpioWrites : List Event → List Nat
  | [] => []
  | Event.gpio_write v :: es => v :: gpioWrites es
  | _ :: es => gpioWrites es

/-! ## C strings in a byte memory

A `char *` is a byte memory (`List Nat`) together with an offset.  Reads outside the
memory give 0, so that a scan always meets a terminator. -/

/-- The characters of the C string starting at offset `p`: up to the first 0 byte. -/
def cstr (m : List Nat) (p : Nat) : List Nat := (m.drop p).takeWhile (fun c => c != 0)

/-- libc `strlen(m + p)`. -/
def strlen (m : List Nat) (p : Nat) : Nat := (cstr m p).length

/-- libc `strcmp(m + p, lit) == 0`, for a literal without 0 bytes. -/
def strcmp_eq (m : List Nat) (p : Nat) (lit : List Nat) : Bool := cstr m p == lit

/-- libc `strncmp(m + p, lit, n) == 0`: the first `n` characters of both strings agree. -/
def strncmp_eq (m : List Nat) (p : Nat) (lit : List Nat) (n : Nat) : Bool :=
  (cstr m p).take n == lit.take n

/-- libc `strchr(m + p, c)`: offset of the first `c` in the string at `p`, if any. -/
def strchr (m : List Nat) (p : Nat) (c : Nat) : Option Nat :=
  if c ∈ cstr m p then some (p + ((cstr m p).takeWhile (fun x => x != c)).length) else none

/-- libc `memmove(m + dst, m + src, n)`. -/
def memmove (m : List Nat) (dst src n : Nat) : List Nat :=
  m.take dst ++ (m.drop src).take n ++ m.drop (dst + n)

/-- Character codes of a string literal. -/
def lit (s : String) : List Nat := s.toList.map Char.toNat

/-! ## Global state -/

/-- The file-scope variables of main.c, and the event log. -/
structure State where
  rx_queue : List Nat
  rx_q_head : Nat
  rx_q_tail : Nat
  parser_state : Nat
  payload_len : Nat
  payload_idx : Nat
  payload_buf : List Nat
  checksum_accum : Nat
  log : List Event
deriving DecidableEq, Repr

/-- State at program start: zero-initialised statics. -/
def State.init : State :=
  { rx_queue := List.replicate RX_QUEUE_SIZE 0, rx_q_head := 0, rx_q_tail := 0,
    parser_state := 0, payload_len := 0, payload_idx := 0,
    payload_buf := List.replicate (MAX_PAYLOAD + 1) 0, checksum_accum := 0, log := [] }

/-! ## RX queue helpers -/

/-- Function `enqueue_rx_byte` (main.c 130-143). -/
def enqueue_rx_byte (st : State) (b : Nat) : State :=
  let head := st.rx_q_head
  let next := (head + 1) % RX_QUEUE_SIZE
  if next ≠ st.rx_q_tail then
    { st with rx_queue := st.rx_queue.set head b, rx_q_head := next }
  else
    st

/-- Function `dequeue_rx_byte` (main.c 145-151): `none` is the `false` return, `some b` is the
`true` return with `*b` written. -/
def dequeue_rx_byte (st : State) : Option Nat × State :=
  if st.rx_q_tail = st.rx_q_head then (none, st)
  else
    (some (st.rx_queue.getD st.rx_q_tail 0),
      { st with rx_q_tail := (st.rx_q_tail + 1) % RX_QUEUE_SIZE })

/-- Enqueue a list of bytes, one call per byte. -/
def enqueueAll (st : State) (bs : List Nat) : State := bs.foldl enqueue_rx_byte st

/-- Call `dequeue_rx_byte` until it returns false, at most `fuel` times; the bytes
obtained, in order, and the state after the last call. -/
def drain : Nat → State → List Nat × State
  | 0, st => ([], st)
  | fuel + 1, st =>
    match dequeue_rx_byte st with
    | (none, st1) => ([], st1)
    | (some b, st1) => let r := drain fuel st1; (b :: r.1, r.2)

/-- Number of bytes held by the queue: distance from `rx_q_tail` to `rx_q_head`, going
round the ring. -/
def queueCount (st : State) : Nat :=
  (st.rx_q_head + RX_QUEUE_SIZE - st.rx_q_tail) % RX_QUEUE_SIZE

/-- The abstract FIFO list of a queue state:
`rx_queue[tail], rx_queue[tail+1 mod 256], ..., rx_queue[head-1 mod 256]`. -/
def queueContents (st : State) : List Nat :=
  (List.range (queueCount st)).map
    (fun i => st.rx_queue.getD ((st.rx_q_tail + i) % RX_QUEUE_SIZE) 0)

/-- Shape of the queue variables in every state the program can be in: 256 slots, both
cursors inside the ring. -/
def QueueWf (st : State) : Prop :=
  st.rx_queue.length = RX_QUEUE_SIZE ∧ st.rx_q_head < RX_QUEUE_SIZE ∧
    st.rx_q_tail < RX_QUEUE_SIZE

/-- One call on the RX queue: `enqueue_rx_byte(b)` or `dequeue_rx_byte(&b)`. -/
inductive QueueOp where
  | enqueue (b : Nat)
  | dequeue
deriving DecidableEq, Repr

/-- Run queue calls one after another: the state after the last call and the results of
the dequeue calls, in order. -/
def runQueue : State → List QueueOp → State × List (Option Nat)
  | st, [] => (st, [])
  | st, QueueOp.enqueue b :: ops => runQueue (enqueue_rx_byte st b) ops
  | st, QueueOp.dequeue :: ops =>
    ((runQueue (dequeue_rx_byte st).2 ops).1,
      (dequeue_rx_byte st).1 :: (runQueue (dequeue_rx_byte st).2 ops).2)

/-- Enqueue of the bounded FIFO list the specification describes: the byte is appended
while fewer than 255 bytes are held, and dropped otherwise. -/
def fifoEnqueue (l : List Nat) (b : Nat) : List Nat :=
  if l.length < RX_QUEUE_SIZE - 1 then l ++ [b] else l

/-- Dequeue of the bounded FIFO list: nothing from the empty list, else the first
element, which is removed. -/
def fifoDequeue : List Nat → Option Nat × List Nat
  | [] => (none, [])
  | x :: xs => (some x, xs)

/-- Run the calls on the bounded FIFO list. -/
def runFifo : List Nat → List QueueOp → List Nat × List (Option Nat)
  | l, [] => (l, [])
  | l, QueueOp.enqueue b :: ops => runFifo (fifoEnqueue l b) ops
  | l, QueueOp.dequeue :: ops =>
    ((runFifo (fifoDequeue l).2 ops).1, (fifoDequeue l).1 :: (runFifo (fifoDequeue l).2 ops).2)

/-! ## A dequeue preempted by the receive interrupt

The main loop runs `dequeue_rx_byte` one memory access at a time; the interrupt handler
runs one whole `enqueue_rx_byte` call between two of these accesses (an interrupt
handler runs to completion before the main loop goes on, and both `volatile` cursors
and the slots are accessed in program order). -/

/-- Progress of one `dequeue_rx_byte` call between its memory accesses: the number of
accesses done, the values read so far, and the return value once the call has returned
(`some none` for `false`, `some (some v)` for `true` with `*b = v`). -/
structure DeqRun where
  pc : Nat
  tail1 : Nat
  tail2 : Nat
  slot : Nat
  tail3 : Nat
  ret : Option (Option Nat)
deriving DecidableEq, Repr

/-- A `dequeue_rx_byte` call that has not made any access yet. -/
def DeqRun.start : DeqRun :=
  { pc := 0, tail1 := 0, tail2 := 0, slot := 0, tail3 := 0, ret := none }

/-- The next memory access of `dequeue_rx_byte` (main.c 145-151):
0 and 1 read `rx_q_tail` and `rx_q_head` for the emptiness test (which returns false when
they are equal), 2 and 3 read `rx_q_tail` and the slot `rx_queue[rx_q_tail]` into `*b`,
4 and 5 read `rx_q_tail` and write `rx_q_tail = (rx_q_tail + 1) % RX_QUEUE_SIZE`, after
which the call returns true.  A call that has returned makes no further access. -/
def deqStep (r : DeqRun) (st : State) : DeqRun × State :=
  match r.pc with
  | 0 => ({ r with pc := 1, tail1 := st.rx_q_tail }, st)
  | 1 =>
    if r.tail1 = st.rx_q_head then ({ r with pc := 6, ret := some none }, st)
    else ({ r with pc := 2 }, st)
  | 2 => ({ r with pc := 3, tail2 := st.rx_q_tail }, st)
  | 3 => ({ r with pc := 4, slot := st.rx_queue.getD r.tail2 0 }, st)
  | 4 => ({ r with pc := 5, tail3 := st.rx_q_tail }, st)
  | 5 =>
    ({ r with pc := 6, ret := some (some r.slot) },
      { st with rx_q_tail := (r.tail3 + 1) % RX_QUEUE_SIZE })
  | _ => (r, st)

/-- Run `n` memory accesses of the call. -/
def deqSteps : Nat → DeqRun → State → DeqRun × State
  | 0, r, st => (r, st)
  | n + 1, r, st => deqSteps n (deqStep r st).1 (deqStep r st).2

/-- A `dequeue_rx_byte` call preempted after its first `k` memory accesses by one
`enqueue_rx_byte(b)` call from the interrupt handler: the return value of the dequeue and
the state after both calls. -/
def dequeue_preempted (k : Nat) (st : State) (b : Nat) : Option (Option Nat) × State :=
  ((deqSteps (6 - k) (deqSteps k DeqRun.start st).1
      (enqueue_rx_byte (deqSteps k DeqRun.start st).2 b)).1.ret,
    (deqSteps (6 - k) (deqSteps k DeqRun.start st).1
      (enqueue_rx_byte (deqSteps k DeqRun.start st).2 b)).2)

/-! ## Response emitter -/

/-- The checksum loop of `send_uart_response`: `cs = (uint8_t)(cs + s[i])` over the
first `len` bytes. -/
def checksumLoop (s : List Nat) (len : Nat) : Nat :=
  (s.take len).foldl (fun cs c => (cs + c) % 256) 0

/-- Function `send_uart_response` (main.c 304-321): the HAL transmit calls it makes. -/
def send_uart_response (s : List Nat) : List Event :=
  let len := strlen s 0 % 256
  if len = 0 ∨ len ≥ MAX_PAYLOAD then []
  else
    let cs := checksumLoop s len
    let header := FRAME_START
    [Event.uart_transmit [header], Event.uart_transmit [len],
     Event.uart_transmit (s.take len), Event.uart_transmit [cs]]

/-! ## Dispatcher -/

/-- The characters removed by `trim_inplace`: space, tab, CR, LF. -/
def isTrimChar (c : Nat) : Bool := c == 32 || c == 9 || c == 13 || c == 10

/-- The leading loop of `trim_inplace`: how far `start` advances over the bytes it sees. -/
def skipLeading : List Nat → Nat
  | [] => 0
  | c :: cs => if c != 0 && isTrimChar c then skipLeading cs + 1 else 0

/-- The trailing loop of `trim_inplace`, started with `len`. -/
def trimTrailing (m : List Nat) (s : Nat) : Nat → List Nat
  | 0 => m
  | len + 1 =>
    let c := m.getD (s + len) 0
    if isTrimChar c then trimTrailing (m.set (s + len) 0) s len else m

/-- Function `trim_inplace(m + s)` (main.c 203-219): the memory after the call. -/
def trim_inplace (m : List Nat) (s : Nat) : List Nat :=
  let start := s + skipLeading (m.drop s)
  let m := if start ≠ s then memmove m s start (strlen m start + 1) else m
  let len := strlen m s
  trimTrailing m s len

/-- Trimming as the specification words it, on the characters of a string: all leading
and all trailing space, tab, CR and LF characters are removed.  This is the reference
the in-place routine `trim_inplace` is compared with. -/
def trimSpec (l : List Nat) : List Nat :=
  (l.dropWhile isTrimChar).rdropWhile isTrimChar

/-- A call `send_uart_response(s)` made by the dispatcher. -/
def respond (s : List Nat) : List Event :=
  Event.send_uart_response_call s :: send_uart_response s

/-- The digit test of the motor branch: `'0' <= c <= '9'`. -/
def isDigitChar (c : Nat) : Bool := decide (48 ≤ c) && decide (c ≤ 57)

/-- Function `handle_payload(data, len)` (main.c 222-301): the buffer after the call and the
events of the call.  `strtoul` and the local `dir` only feed a debug print and are
left out. -/
def handle_payload (data : List Nat) (len : Nat) : List Nat × List Event :=
  let s := 0
  let m := trim_inplace data s
  if strcmp_eq m s (lit "ping") then (m, respond (lit "ACK:pong"))
  else if strncmp_eq m s (lit "led:") 4 then
    let arg := s + 4
    let m := trim_inplace m arg
    if strcmp_eq m arg (lit "on") then
      (m, Event.gpio_write GPIO_PIN_SET :: respond (lit "LED:OK"))
    else if strcmp_eq m arg (lit "off") then
      (m, Event.gpio_write GPIO_PIN_RESET :: respond (lit "LED:OK"))
    else (m, respond (lit "LED:ERR"))
  else if strncmp_eq m s (lit "motor:") 6 then
    let p := s + 6
    let m := trim_inplace m p
    match strchr m p 58 with
    | none => (m, respond (lit "MOTOR:ERR:FORMAT"))
    | some sep =>
      let m := m.set sep 0
      let steps_str := p
      let dir_str := sep + 1
      let m := trim_inplace m steps_str
      let m := trim_inplace m dir_str
      let steps_ok := true
      let steps_ok := if strlen m steps_str = 0 then false else steps_ok
      let steps_ok := if (cstr m steps_str).all isDigitChar then steps_ok else false
      let dir_ok := strcmp_eq m dir_str (lit "0") || strcmp_eq m dir_str (lit "1")
      if !steps_ok || !dir_ok then (m, respond (lit "MOTOR:ERR:BAD_ARGS"))
      else (m, respond (lit "MOTOR:OK"))
  else (m, respond (lit "UNKNOWN"))

/-- Text of `p` before its first ':' (all of `p` when it has none). -/
def beforeColon (p : List Nat) : List Nat := p.takeWhile (fun x => x != 58)

/-- Text of `p` after its first ':'. -/
def afterColon (p : List Nat) : List Nat := p.drop ((beforeColon p).length + 1)

/-- Command dispatch as the specification words it, on the characters of a payload: the
events one dispatcher call is to produce.  This is the reference `handle_payload`, which
works in place on the terminated buffer, is compared with. -/
def dispatchSpec (payload : List Nat) : List Event :=
  let t := trimSpec payload
  if t = lit "ping" then respond (lit "ACK:pong")
  else if t.take 4 = lit "led:" then
    let r := trimSpec (t.drop 4)
    if r = lit "on" then Event.gpio_write GPIO_PIN_SET :: respond (lit "LED:OK")
    else if r = lit "off" then Event.gpio_write GPIO_PIN_RESET :: respond (lit "LED:OK")
    else respond (lit "LED:ERR")
  else if t.take 6 = lit "motor:" then
    let p := trimSpec (t.drop 6)
    if 58 ∈ p then
      let steps := trimSpec (beforeColon p)
      let dir := trimSpec (afterColon p)
      if steps ≠ [] ∧ steps.all isDigitChar = true ∧ (dir = lit "0" ∨ dir = lit "1") then
        respond (lit "MOTOR:OK")
      else respond (lit "MOTOR:ERR:BAD_ARGS")
    else respond (lit "MOTOR:ERR:FORMAT")
  else respond (lit "UNKNOWN")

/-- The string literals passed to `send_uart_response` in `handle_payload`. -/
def responseStrings : List (List Nat) :=
  [lit "ACK:pong", lit "LED:OK", lit "LED:ERR", lit "MOTOR:OK", lit "MOTOR:ERR:FORMAT",
   lit "MOTOR:ERR:BAD_ARGS", lit "UNKNOWN"]

/-! ## Parser state machine -/

/-- Function `process_byte` (main.c 154-199). -/
def process_byte (st : State) (b : Nat) : State :=
  match st.parser_state with
  | 0 => if b = FRAME_START then { st with parser_state := 1 } else st
  | 1 =>
    let st := { st with payload_len := b }
    if st.payload_len > 0 ∧ st.payload_len < MAX_PAYLOAD then
      { st with payload_idx := 0, checksum_accum := 0, parser_state := 2 }
    else
      { st with parser_state := 0 }
  | 2 =>
    let st := { st with payload_buf := st.payload_buf.set st.payload_idx b,
                        payload_idx := (st.payload_idx + 1) % 256 }
    let st := { st with checksum_accum := (st.checksum_accum + b) % 256 }
    if st.payload_idx ≥ st.payload_len then { st with parser_state := 3 } else st
  | 3 =>
    let st :=
      if b = st.checksum_accum then
        let buf := st.payload_buf.set st.payload_len 0
        let r := handle_payload buf st.payload_len
        { st with payload_buf := r.1,
                  log := st.log ++ Event.handle_payload_call buf st.payload_len :: r.2 }
      else st
    { st with parser_state := 0 }
  | _ => { st with parser_state := 0 }

/-- Feed bytes to the parser one at a time, as the main loop does. -/
def feed (st : State) (bs : List Nat) : State := bs.foldl process_byte st

/-- The parser invariant: the buffer has its 129 bytes, the state is one of 0..3, and in
the payload and checksum states the length, index and running checksum agree with the
bytes stored so far. -/
def ParserInv (st : State) : Prop :=
  st.payload_buf.length = MAX_PAYLOAD + 1 ∧
  st.parser_state ≤ 3 ∧
  (st.parser_state = 2 →
    0 < st.payload_len ∧ st.payload_len < MAX_PAYLOAD ∧ st.payload_idx < st.payload_len ∧
    st.checksum_accum = (st.payload_buf.take st.payload_idx).sum % 256) ∧
  (st.parser_state = 3 →
    0 < st.payload_len ∧ st.payload_len < MAX_PAYLOAD ∧ st.payload_idx = st.payload_len ∧
    st.checksum_accum = (st.payload_buf.take st.payload_len).sum % 256)

/-! ## Parser: one step in each state -/

theorem process_byte_idle (st : State) (b : Nat) (h : st.parser_state = 0) :
    process_byte st b = if b = FRAME_START then { st with parser_state := 1 } else st := by
  simp [process_byte, h]

theorem process_byte_length (st : State) (b : Nat) (h : st.parser_state = 1) :
    process_byte st b =
      if 0 < b ∧ b < MAX_PAYLOAD then
        { st with payload_len := b, payload_idx := 0, checksum_accum := 0, parser_state := 2 }
      else { st with payload_len := b, parser_state := 0 } := by
  simp [process_byte, h]

theorem process_byte_payload (st : State) (b : Nat) (h : st.parser_state = 2) :
    process_byte st b =
      if st.payload_len ≤ (st.payload_idx + 1) % 256 then
        { st with payload_buf := st.payload_buf.set st.payload_idx b,
                  payload_idx := (st.payload_idx + 1) % 256,
                  checksum_accum := (st.checksum_accum + b) % 256, parser_state := 3 }
      else
        { st with payload_buf := st.payload_buf.set st.payload_idx b,
                  payload_idx := (st.payload_idx + 1) % 256,
                  checksum_accum := (st.checksum_accum + b) % 256 } := by
  simp [process_byte, h]

theorem process_byte_checksum (st : State) (b : Nat) (h : st.parser_state = 3) :
    process_byte st b =
      if b = st.checksum_accum then
        { st with
            payload_buf := (handle_payload (st.payload_buf.set st.payload_len 0) st.payload_len).1,
            log := st.log ++
              Event.handle_payload_call (st.payload_buf.set st.payload_len 0) st.payload_len ::
                (handle_payload (st.payload_buf.set st.payload_len 0) st.payload_len).2,
            parser_state := 0 }
      else { st with parser_state := 0 } := by
  simp only [process_byte, h]
  split <;> rfl

theorem process_byte_log_of_ne (st : State) (b : Nat) (h : st.parser_state ≠ 3) :
    (process_byte st b).log = st.log := by
  unfold process_byte
  split
  · split <;> rfl
  · simp only []
    split <;> rfl
  · simp only []
    split <;> rfl
  · exact absurd (by assumption) h
  · rfl

theorem feed_append (st : State) (xs ys : List Nat) :
    feed st (xs ++ ys) = feed (feed st xs) ys := by
  simp [feed, List.foldl_append]

theorem feed_cons (st : State) (x : Nat) (xs : List Nat) :
    feed st (x :: xs) = feed (process_byte st x) xs := rfl

theorem feed_nil (st : State) : feed st [] = st := rfl

/-! ## Parser: the payload phase -/

theorem set_take_succ (l : List Nat) (i b : Nat) (h : i < l.length) :
    (l.set i b).take (i + 1) = l.take i ++ [b] := by
  induction l generalizing i with
  | nil => simp at h
  | cons x xs ih =>
    cases i with
    | zero => simp
    | succ j =>
      simp only [List.length_cons, Nat.add_lt_add_iff_right] at h
      simp [List.set_cons_succ, List.take_succ_cons, ih j h]

theorem set_drop_succ (l : List Nat) (i k b : Nat) :
    (l.set i b).drop (i + 1 + k) = l.drop (i + 1 + k) := by
  induction l generalizing i with
  | nil => simp
  | cons x xs ih =>
    cases i with
    | zero => simp [Nat.add_comm 1 k]
    | succ j =>
      have e : j + 1 + 1 + k = (j + 1 + k) + 1 := by omega
      rw [e, List.set_cons_succ, List.drop_succ_cons, List.drop_succ_cons, ih]

/-- Feeding payload bytes that do not complete the frame: they are stored in order, summed
into the checksum, and nothing else changes. -/
theorem feed_payload_partial (bs : List Nat) : ∀ (st : State),
    st.parser_state = 2 → st.payload_idx + bs.length < st.payload_len →
    st.payload_len ≤ 256 → st.payload_idx + bs.length ≤ st.payload_buf.length →
    st.checksum_accum < 256 →
    feed st bs =
      { st with
          payload_buf := st.payload_buf.take st.payload_idx ++ bs ++
            st.payload_buf.drop (st.payload_idx + bs.length),
          payload_idx := st.payload_idx + bs.length,
          checksum_accum := (st.checksum_accum + bs.sum) % 256 } := by
  induction bs with
  | nil =>
    intro st _ _ _ _ hc
    simp [feed_nil, Nat.mod_eq_of_lt hc]
  | cons b bs ih =>
    intro st h2 hlt hlen hbuf hc
    simp only [List.length_cons] at hlt hbuf
    have hmod : (st.payload_idx + 1) % 256 = st.payload_idx + 1 :=
      Nat.mod_eq_of_lt (by omega)
    rw [feed_cons, process_byte_payload st b h2, hmod, if_neg (by omega)]
    rw [ih]
    · have e1 : st.payload_idx + 1 + bs.length = st.payload_idx + (bs.length + 1) := by omega
      simp only [List.length_cons, List.sum_cons, State.mk.injEq, true_and, and_true]
      refine ⟨by omega, ?_, ?_⟩
      · rw [set_take_succ _ _ _ (by omega), set_drop_succ, e1]
        simp
      · rw [Nat.mod_add_mod, Nat.add_assoc]
    · exact h2
    · simp only []; omega
    · exact hlen
    · simp only [List.length_set]; omega
    · exact Nat.mod_lt _ (by decide)

/-- Start marker, length byte and an incomplete payload, fed to an idle parser. -/
theorem feed_header_partial (st : State) (n : Nat) (xs : List Nat)
    (h0 : st.parser_state = 0) (hn : n < MAX_PAYLOAD) (hx : xs.length < n)
    (hbuf : n ≤ st.payload_buf.length) :
    feed st (FRAME_START :: n :: xs) =
      { st with parser_state := 2, payload_len := n, payload_idx := xs.length,
                payload_buf := xs ++ st.payload_buf.drop xs.length,
                checksum_accum := xs.sum % 256 } := by
  have hpos : 0 < n ∧ n < MAX_PAYLOAD := ⟨by omega, hn⟩
  rw [feed_cons, process_byte_idle st _ h0, if_pos rfl, feed_cons,
    process_byte_length _ _ rfl, if_pos hpos, feed_payload_partial]
  · simp
  · rfl
  · simp only [Nat.zero_add]; exact hx
  · simp only [MAX_PAYLOAD] at hn ⊢; omega
  · simp only [Nat.zero_add]; omega
  · simp only []; decide

/-- Start marker, length byte and the complete payload, fed to an idle parser: the
parser waits for the checksum byte, the buffer starts with the payload and the
accumulator holds its sum modulo 256. -/
theorem feed_header_payload (st : State) (bs : List Nat)
    (h0 : st.parser_state = 0) (hpos : 0 < bs.length) (hn : bs.length < MAX_PAYLOAD)
    (hbuf : bs.length ≤ st.payload_buf.length) :
    feed st (FRAME_START :: bs.length :: bs) =
      { st with parser_state := 3, payload_len := bs.length, payload_idx := bs.length,
                payload_buf := bs ++ st.payload_buf.drop bs.length,
                checksum_accum := bs.sum % 256 } := by
  rcases List.eq_nil_or_concat bs with rfl | ⟨xs, b, rfl⟩
  · simp at hpos
  · simp only [List.concat_eq_append, List.length_append, List.length_singleton] at hn hbuf ⊢
    have e : FRAME_START :: (xs.length + 1) :: (xs ++ [b]) =
        (FRAME_START :: (xs.length + 1) :: xs) ++ [b] := by simp
    rw [e, feed_append, feed_header_partial st _ xs h0 hn (by omega) (by omega),
      feed_cons, feed_nil, process_byte_payload _ _ rfl]
    have hmod : (xs.length + 1) % 256 = xs.length + 1 := by
      simp only [MAX_PAYLOAD] at hn
      exact Nat.mod_eq_of_lt (by omega)
    simp only [hmod, le_refl, if_true, State.mk.injEq, true_and, and_true, List.sum_append,
      List.sum_singleton, Nat.mod_add_mod]
    have hl : (xs ++ List.drop xs.length st.payload_buf).length = st.payload_buf.length := by
      simp only [List.length_append, List.length_drop]; omega
    apply List.ext_getElem
    · simp only [List.length_set, hl, List.length_append, List.length_singleton,
        List.length_drop]
      omega
    · intro i h1 h2
      simp only [List.getElem_set, List.getElem_append, List.length_append,
        List.length_singleton, List.getElem_drop]
      by_cases hi : xs.length = i
      · subst hi; simp
      · by_cases hi2 : i < xs.length
        · simp [hi, hi2, Nat.lt_succ_of_lt hi2]
        · have hi3 : ¬ i < xs.length + 1 := by omega
          simp only [hi, hi2, hi3, if_false, dite_false, List.getElem_singleton]
          congr 1
          omega

/-- A complete frame whose last byte equals the payload sum modulo 256, fed to an idle
parser. -/
theorem feed_frame_ok (st : State) (bs : List Nat)
    (h0 : st.parser_state = 0) (hpos : 0 < bs.length) (hn : bs.length < MAX_PAYLOAD)
    (hbuf : bs.length ≤ st.payload_buf.length) :
    feed st (FRAME_START :: bs.length :: (bs ++ [bs.sum % 256])) =
      { st with
          parser_state := 0, payload_len := bs.length, payload_idx := bs.length,
          payload_buf :=
            (handle_payload ((bs ++ st.payload_buf.drop bs.length).set bs.length 0)
              bs.length).1,
          checksum_accum := bs.sum % 256,
          log := st.log ++
            Event.handle_payload_call
                ((bs ++ st.payload_buf.drop bs.length).set bs.length 0) bs.length ::
              (handle_payload ((bs ++ st.payload_buf.drop bs.length).set bs.length 0)
                bs.length).2 } := by
  have e : FRAME_START :: bs.length :: (bs ++ [bs.sum % 256]) =
      (FRAME_START :: bs.length :: bs) ++ [bs.sum % 256] := by simp
  rw [e, feed_append, feed_header_payload st bs h0 hpos hn hbuf, feed_cons, feed_nil,
    process_byte_checksum _ _ rfl, if_pos rfl]

/-- A complete frame whose last byte differs from the payload sum modulo 256, fed to an
idle parser: only parser bookkeeping changes. -/
theorem feed_frame_bad (st : State) (bs : List Nat) (c : Nat)
    (h0 : st.parser_state = 0) (hpos : 0 < bs.length) (hn : bs.length < MAX_PAYLOAD)
    (hbuf : bs.length ≤ st.payload_buf.length) (hc : c ≠ bs.sum % 256) :
    feed st (FRAME_START :: bs.length :: (bs ++ [c])) =
      { st with
          parser_state := 0, payload_len := bs.length, payload_idx := bs.length,
          payload_buf := bs ++ st.payload_buf.drop bs.length,
          checksum_accum := bs.sum % 256 } := by
  have e : FRAME_START :: bs.length :: (bs ++ [c]) =
      (FRAME_START :: bs.length :: bs) ++ [c] := by simp
  rw [e, feed_append, feed_header_payload st bs h0 hpos hn hbuf, feed_cons, feed_nil,
    process_byte_checksum _ _ rfl, if_neg hc]

/-! ## Event projections -/

theorem handleCalls_append (xs ys : List Event) :
    handleCalls (xs ++ ys) = handleCalls xs ++ handleCalls ys := by
  induction xs with
  | nil => rfl
  | cons e es ih => cases e <;> simp [handleCalls, ih]

theorem txBytes_append (xs ys : List Event) :
    txBytes (xs ++ ys) = txBytes xs ++ txBytes ys := by
  induction xs with
  | nil => rfl
  | cons e es ih => cases e <;> simp [txBytes, ih]

theorem responses_append (xs ys : List Event) :
    responses (xs ++ ys) = responses xs ++ responses ys := by
  induction xs with
  | nil => rfl
  | cons e es ih => cases e <;> simp [responses, ih]

theorem gpioWrites_append (xs ys : List Event) :
    gpioWrites (xs ++ ys) = gpioWrites xs ++ gpioWrites ys := by
  induction xs with
  | nil => rfl
  | cons e es ih => cases e <;> simp [gpioWrites, ih]

theorem handleCalls_send (s : List Nat) : handleCalls (send_uart_response s) = [] := by
  unfold send_uart_response
  simp only []
  split <;> rfl

theorem responses_send (s : List Nat) : responses (send_uart_response s) = [] := by
  unfold send_uart_response
  simp only []
  split <;> rfl

theorem gpioWrites_send (s : List Nat) : gpioWrites (send_uart_response s) = [] := by
  unfold send_uart_response
  simp only []
  split <;> rfl

theorem handleCalls_respond (s : List Nat) : handleCalls (respond s) = [] := by
  simp [respond, handleCalls, handleCalls_send]

theorem responses_respond (s : List Nat) : responses (respond s) = [s] := by
  simp [respond, responses, responses_send]

theorem gpioWrites_respond (s : List Nat) : gpioWrites (respond s) = [] := by
  simp [respond, gpioWrites, gpioWrites_send]

theorem txBytes_respond (s : List Nat) : txBytes (respond s) = txBytes (send_uart_response s) := by
  simp [respond, txBytes]

theorem mem_responseStrings (s : List Nat) :
    s ∈ responseStrings ↔
      s = lit "ACK:pong" ∨ s = lit "LED:OK" ∨ s = lit "LED:ERR" ∨ s = lit "MOTOR:OK" ∨
      s = lit "MOTOR:ERR:FORMAT" ∨ s = lit "MOTOR:ERR:BAD_ARGS" ∨ s = lit "UNKNOWN" := by
  unfold responseStrings
  simp only [List.mem_cons, List.mem_singleton, List.not_mem_nil, or_false]

/-- Shape of the events of one dispatcher call: one response out of the seven literals,
preceded by one pin write in the two accepted LED cases only. -/
theorem handle_payload_events (data : List Nat) (len : Nat) :
    (∃ s ∈ responseStrings, (handle_payload data len).2 = respond s) ∨
    (∃ v, (v = GPIO_PIN_SET ∨ v = GPIO_PIN_RESET) ∧
      (handle_payload data len).2 = Event.gpio_write v :: respond (lit "LED:OK")) := by
  unfold handle_payload
  dsimp only
  repeat' split
  all_goals first
    | exact Or.inl ⟨_, (mem_responseStrings _).2 (Or.inl rfl), rfl⟩
    | exact Or.inr ⟨_, Or.inl rfl, rfl⟩
    | exact Or.inr ⟨_, Or.inr rfl, rfl⟩
    | exact Or.inl ⟨_, (mem_responseStrings _).2 (Or.inr (Or.inr (Or.inl rfl))), rfl⟩
    | exact Or.inl ⟨_, (mem_responseStrings _).2 (Or.inr (Or.inr (Or.inr (Or.inl rfl)))), rfl⟩
    | exact Or.inl ⟨_, (mem_responseStrings _).2
        (Or.inr (Or.inr (Or.inr (Or.inr (Or.inl rfl))))), rfl⟩
    | exact Or.inl ⟨_, (mem_responseStrings _).2
        (Or.inr (Or.inr (Or.inr (Or.inr (Or.inr (Or.inl rfl)))))), rfl⟩
    | exact Or.inl ⟨_, (mem_responseStrings _).2
        (Or.inr (Or.inr (Or.inr (Or.inr (Or.inr (Or.inr rfl)))))), rfl⟩

theorem handleCalls_handle_payload (data : List Nat) (len : Nat) :
    handleCalls (handle_payload data len).2 = [] := by
  rcases handle_payload_events data len with ⟨s, _, h⟩ | ⟨v, _, h⟩
  · rw [h, handleCalls_respond]
  · rw [h]; simp [handleCalls, handleCalls_respond]

/-- While a frame is still incomplete nothing has been logged: every proper beginning of
a frame, fed to an idle parser, leaves the event log as it was. -/
theorem feed_frame_prefix_log (st : State) (bs : List Nat) (c k : Nat)
    (h0 : st.parser_state = 0) (hpos : 0 < bs.length) (hn : bs.length < MAX_PAYLOAD)
    (hbuf : bs.length ≤ st.payload_buf.length) (hk : k ≤ bs.length + 2) :
    (feed st ((FRAME_START :: bs.length :: (bs ++ [c])).take k)).log = st.log := by
  match k, hk with
  | 0, _ => rfl
  | 1, _ =>
    simp only [List.take_succ_cons, List.take_zero, feed_cons, feed_nil]
    exact process_byte_log_of_ne st _ (by rw [h0]; decide)
  | j + 2, hj =>
    have hj2 : j ≤ bs.length := by omega
    have e : (FRAME_START :: bs.length :: (bs ++ [c])).take (j + 2) =
        FRAME_START :: bs.length :: bs.take j := by
      simp only [List.take_succ_cons, List.take_append_of_le_length hj2]
    rw [e]
    rcases Nat.lt_or_ge j bs.length with hlt | hge
    · have hl : (bs.take j).length = j := by simp [List.length_take]; omega
      -- the first j payload bytes of a frame that declares bs.length bytes
      have key := feed_header_partial st bs.length (bs.take j) h0 hn (by omega) hbuf
      rw [key]
    · have hj3 : j = bs.length := by omega
      subst hj3
      rw [List.take_length, feed_header_payload st bs h0 hpos hn hbuf]

/-- The buffer handed to the dispatcher for payload `bs`: the payload, then the
terminator. -/
theorem frame_buffer_shape (bs buf : List Nat) (h : bs.length < buf.length) :
    ((bs ++ buf.drop bs.length).set bs.length 0).take bs.length = bs ∧
    ((bs ++ buf.drop bs.length).set bs.length 0)[bs.length]? = some 0 := by
  have hl : (bs ++ buf.drop bs.length).length = buf.length := by
    simp only [List.length_append, List.length_drop]; omega
  constructor
  · rw [List.set_take, List.take_left, List.set_eq_of_length_le (Nat.le_refl _)]
  · rw [List.getElem?_set_self (by omega)]

/-! ## Claims about the parser -/

/-- A well-formed frame fed to an idle parser adds exactly one `handle_payload` call,
with the payload at the start of the buffer and a terminator behind it. -/
theorem frame_dispatch (st : State) (bs : List Nat)
    (h0 : st.parser_state = 0) (hbuf : st.payload_buf.length = MAX_PAYLOAD + 1)
    (hpos : 0 < bs.length) (hn : bs.length < MAX_PAYLOAD) :
    ∃ buf,
      handleCalls (feed st (FRAME_START :: bs.length :: (bs ++ [bs.sum % 256]))).log =
        handleCalls st.log ++ [(buf, bs.length)] ∧
      buf.take bs.length = bs ∧ buf[bs.length]? = some 0 := by
  have hb : bs.length ≤ st.payload_buf.length := by rw [hbuf]; omega
  have hb2 : bs.length < st.payload_buf.length := by rw [hbuf]; omega
  refine ⟨(bs ++ st.payload_buf.drop bs.length).set bs.length 0, ?_,
    (frame_buffer_shape bs st.payload_buf hb2).1, (frame_buffer_shape bs st.payload_buf hb2).2⟩
  rw [feed_frame_ok st bs h0 hpos hn hb]
  simp only [handleCalls_append, handleCalls, handleCalls_handle_payload]

/-- C1: a well-formed frame `0xAA, n, b1..bn, (b1+...+bn) mod 256` with `0 < n < 128`, fed
byte by byte to an idle parser, makes no `handle_payload` call before its last byte,
makes exactly one on the last byte, with `len = n` and a buffer that starts with
`b1..bn` followed by a 0 terminator, and leaves the parser idle. -/
theorem C1_wellformed_frame_dispatched_once (st : State) (bs : List Nat)
    (h0 : st.parser_state = 0) (hbuf : st.payload_buf.length = MAX_PAYLOAD + 1)
    (hpos : 0 < bs.length) (hn : bs.length < MAX_PAYLOAD) :
    (∀ k, k < bs.length + 3 →
      handleCalls (feed st ((FRAME_START :: bs.length :: (bs ++ [bs.sum % 256])).take k)).log =
        handleCalls st.log) ∧
    (∃ buf,
      handleCalls (feed st (FRAME_START :: bs.length :: (bs ++ [bs.sum % 256]))).log =
        handleCalls st.log ++ [(buf, bs.length)] ∧
      buf.take bs.length = bs ∧ buf[bs.length]? = some 0) ∧
    (feed st (FRAME_START :: bs.length :: (bs ++ [bs.sum % 256]))).parser_state = 0 := by
  have hb : bs.length ≤ st.payload_buf.length := by rw [hbuf]; omega
  refine ⟨?_, frame_dispatch st bs h0 hbuf hpos hn, ?_⟩
  · intro k hk
    rw [feed_frame_prefix_log st bs _ k h0 hpos hn hb (by omega)]
  · rw [feed_frame_ok st bs h0 hpos hn hb]

theorem C1_witness :
    State.init.parser_state = 0 ∧ State.init.payload_buf.length = MAX_PAYLOAD + 1 ∧
    (∀ k, k < [112, 105, 110, 103].length + 3 →
      handleCalls (feed State.init ((FRAME_START :: [112, 105, 110, 103].length ::
        ([112, 105, 110, 103] ++ [[112, 105, 110, 103].sum % 256])).take k)).log =
        handleCalls State.init.log) ∧
    (∃ buf,
      handleCalls (feed State.init (FRAME_START :: [112, 105, 110, 103].length ::
        ([112, 105, 110, 103] ++ [[112, 105, 110, 103].sum % 256]))).log =
        handleCalls State.init.log ++ [(buf, [112, 105, 110, 103].length)] ∧
      buf.take [112, 105, 110, 103].length = [112, 105, 110, 103] ∧
      buf[[112, 105, 110, 103].length]? = some 0) ∧
    (feed State.init (FRAME_START :: [112, 105, 110, 103].length ::
      ([112, 105, 110, 103] ++ [[112, 105, 110, 103].sum % 256]))).parser_state = 0 :=
  ⟨rfl, List.length_replicate _ _,
    C1_wellformed_frame_dispatched_once State.init [112, 105, 110, 103] rfl
      (List.length_replicate _ _) (by decide) (by decide)⟩

/-- C5: a frame with `0 < n < 128` whose checksum byte differs from the payload sum
modulo 256, fed to an idle parser, logs nothing at all (no `handle_payload` call, no
transmitted byte) and leaves the parser idle; a well-formed frame fed right after it is
dispatched with its own payload. -/
theorem C5_bad_checksum_dropped (st : State) (bs : List Nat) (c : Nat)
    (h0 : st.parser_state = 0) (hbuf : st.payload_buf.length = MAX_PAYLOAD + 1)
    (hpos : 0 < bs.length) (hn : bs.length < MAX_PAYLOAD) (hc : c ≠ bs.sum % 256) :
    (∀ k, k ≤ bs.length + 3 →
      (feed st ((FRAME_START :: bs.length :: (bs ++ [c])).take k)).log = st.log) ∧
    handleCalls (feed st (FRAME_START :: bs.length :: (bs ++ [c]))).log = handleCalls st.log ∧
    txBytes (feed st (FRAME_START :: bs.length :: (bs ++ [c]))).log = txBytes st.log ∧
    (feed st (FRAME_START :: bs.length :: (bs ++ [c]))).parser_state = 0 ∧
    ∀ bs2 : List Nat, 0 < bs2.length → bs2.length < MAX_PAYLOAD →
      ∃ buf,
        handleCalls (feed (feed st (FRAME_START :: bs.length :: (bs ++ [c])))
          (FRAME_START :: bs2.length :: (bs2 ++ [bs2.sum % 256]))).log =
          handleCalls st.log ++ [(buf, bs2.length)] ∧
        buf.take bs2.length = bs2 ∧ buf[bs2.length]? = some 0 := by
  have hb : bs.length ≤ st.payload_buf.length := by rw [hbuf]; omega
  have hfin := feed_frame_bad st bs c h0 hpos hn hb hc
  have hlog : (feed st (FRAME_START :: bs.length :: (bs ++ [c]))).log = st.log := by rw [hfin]
  refine ⟨?_, by rw [hlog], by rw [hlog], by rw [hfin], ?_⟩
  · intro k hk
    rcases Nat.lt_or_ge k (bs.length + 3) with hlt | hge
    · exact feed_frame_prefix_log st bs c k h0 hpos hn hb (by omega)
    · rw [List.take_of_length_le (by simp; omega), hlog]
  · intro bs2 hpos2 hn2
    have hbuf2 : (feed st (FRAME_START :: bs.length :: (bs ++ [c]))).payload_buf.length =
        MAX_PAYLOAD + 1 := by
      rw [hfin]
      simp only [List.length_append, List.length_drop]
      omega
    have h := (frame_dispatch (feed st (FRAME_START :: bs.length :: (bs ++ [c]))) bs2
      (by rw [hfin]) hbuf2 hpos2 hn2)
    rw [hlog] at h
    exact h

theorem C5_witness :
    State.init.parser_state = 0 ∧ State.init.payload_buf.length = MAX_PAYLOAD + 1 ∧
    (0 : Nat) ≠ [1, 2].sum % 256 ∧
    ((∀ k, k ≤ [1, 2].length + 3 →
      (feed State.init ((FRAME_START :: [1, 2].length :: ([1, 2] ++ [0])).take k)).log =
        State.init.log) ∧
    handleCalls (feed State.init (FRAME_START :: [1, 2].length :: ([1, 2] ++ [0]))).log =
      handleCalls State.init.log ∧
    txBytes (feed State.init (FRAME_START :: [1, 2].length :: ([1, 2] ++ [0]))).log =
      txBytes State.init.log ∧
    (feed State.init (FRAME_START :: [1, 2].length :: ([1, 2] ++ [0]))).parser_state = 0 ∧
    ∀ bs2 : List Nat, 0 < bs2.length → bs2.length < MAX_PAYLOAD →
      ∃ buf,
        handleCalls (feed (feed State.init (FRAME_START :: [1, 2].length :: ([1, 2] ++ [0])))
          (FRAME_START :: bs2.length :: (bs2 ++ [bs2.sum % 256]))).log =
          handleCalls State.init.log ++ [(buf, bs2.length)] ∧
        buf.take bs2.length = bs2 ∧ buf[bs2.length]? = some 0) :=
  ⟨rfl, List.length_replicate _ _, by decide,
    C5_bad_checksum_dropped State.init [1, 2] 0 rfl (List.length_replicate _ _) (by decide)
      (by decide) (by decide)⟩

/-- C6: a length byte `n` that is 0 or at least 128, received after the start marker by
an idle parser, sends the parser back to idle: the state after the marker is 1, the
state after the length byte is 0 (never 2), and neither byte touches `payload_buf` or
the event log (no `handle_payload` call, nothing transmitted). -/
theorem C6_invalid_length_resyncs (st : State) (n : Nat)
    (h0 : st.parser_state = 0) (hn : n = 0 ∨ n ≥ MAX_PAYLOAD) :
    (process_byte st FRAME_START).parser_state = 1 ∧
    (feed st [FRAME_START, n]).parser_state = 0 ∧
    (process_byte st FRAME_START).payload_buf = st.payload_buf ∧
    (feed st [FRAME_START, n]).payload_buf = st.payload_buf ∧
    (process_byte st FRAME_START).log = st.log ∧
    (feed st [FRAME_START, n]).log = st.log ∧
    handleCalls (feed st [FRAME_START, n]).log = handleCalls st.log ∧
    txBytes (feed st [FRAME_START, n]).log = txBytes st.log := by
  have hbad : ¬ (0 < n ∧ n < MAX_PAYLOAD) := by
    rcases hn with h | h
    · omega
    · omega
  have h1 : process_byte st FRAME_START = { st with parser_state := 1 } := by
    rw [process_byte_idle st _ h0, if_pos rfl]
  have h2 : feed st [FRAME_START, n] = { st with payload_len := n, parser_state := 0 } := by
    rw [feed_cons, feed_cons, feed_nil, h1, process_byte_length _ _ rfl, if_neg hbad]
  rw [h1, h2]
  exact ⟨rfl, rfl, rfl, rfl, rfl, rfl, rfl, rfl⟩

theorem C6_witness :
    State.init.parser_state = 0 ∧ ((200 : Nat) = 0 ∨ 200 ≥ MAX_PAYLOAD) ∧
    ((process_byte State.init FRAME_START).parser_state = 1 ∧
    (feed State.init [FRAME_START, 200]).parser_state = 0 ∧
    (process_byte State.init FRAME_START).payload_buf = State.init.payload_buf ∧
    (feed State.init [FRAME_START, 200]).payload_buf = State.init.payload_buf ∧
    (process_byte State.init FRAME_START).log = State.init.log ∧
    (feed State.init [FRAME_START, 200]).log = State.init.log ∧
    handleCalls (feed State.init [FRAME_START, 200]).log = handleCalls State.init.log ∧
    txBytes (feed State.init [FRAME_START, 200]).log = txBytes State.init.log) :=
  ⟨rfl, by decide, C6_invalid_length_resyncs State.init 200 rfl (by decide)⟩

/-! ## Response emitter -/

theorem cstr_zero (s : List Nat) : cstr s 0 = s.takeWhile (fun c => c != 0) := by
  simp [cstr]

theorem take_length_takeWhile (p : Nat → Bool) (l : List Nat) :
    l.take (l.takeWhile p).length = l.takeWhile p := by
  induction l with
  | nil => rfl
  | cons x xs ih =>
    by_cases h : p x
    · simp [List.takeWhile_cons, h, ih]
    · simp [List.takeWhile_cons, h]

theorem take_strlen (s : List Nat) : s.take (strlen s 0) = cstr s 0 := by
  rw [strlen, cstr_zero, take_length_takeWhile]

theorem foldl_checksum (l : List Nat) : ∀ a : Nat,
    l.foldl (fun cs c => (cs + c) % 256) a = if l = [] then a else (a + l.sum) % 256 := by
  induction l with
  | nil => intro a; rfl
  | cons x xs ih =>
    intro a
    rw [List.foldl_cons, ih]
    by_cases h : xs = []
    · subst h; simp
    · simp [h, Nat.add_assoc]

theorem checksumLoop_eq (s : List Nat) (h : 0 < strlen s 0) :
    checksumLoop s (strlen s 0) = (cstr s 0).sum % 256 := by
  have hne : cstr s 0 ≠ [] := by
    intro e
    rw [strlen, e] at h
    exact Nat.lt_irrefl _ h
  rw [checksumLoop, take_strlen, foldl_checksum, if_neg hne, Nat.zero_add]

/-- The four transmit calls made for a string of admissible length. -/
theorem send_uart_response_valid (s : List Nat) (hpos : 0 < strlen s 0)
    (hlt : strlen s 0 < MAX_PAYLOAD) :
    send_uart_response s =
      [Event.uart_transmit [FRAME_START], Event.uart_transmit [strlen s 0],
       Event.uart_transmit (cstr s 0), Event.uart_transmit [(cstr s 0).sum % 256]] := by
  have hmod : strlen s 0 % 256 = strlen s 0 := by
    simp only [MAX_PAYLOAD] at hlt
    exact Nat.mod_eq_of_lt (by omega)
  unfold send_uart_response
  simp only [hmod]
  rw [if_neg (by omega), take_strlen, checksumLoop_eq s hpos]

/-- Nothing is sent when the string is empty or its length is in 128..255. -/
theorem send_uart_response_skip (s : List Nat)
    (h : strlen s 0 = 0 ∨ (MAX_PAYLOAD ≤ strlen s 0 ∧ strlen s 0 < 256)) :
    send_uart_response s = [] := by
  unfold send_uart_response
  simp only []
  rw [if_pos]
  rcases h with h | ⟨h1, h2⟩
  · left; rw [h]
  · right; rw [Nat.mod_eq_of_lt h2]; exact h1

/-- C8: for a string with `0 < strlen(s) < 128`, `send_uart_response` makes four transmit
calls that put on the wire, in this order and nothing else: 0xAA, one length byte equal
to `strlen(s)`, the characters of `s`, one byte equal to their sum modulo 256. -/
theorem C8_emitted_frame_layout (s : List Nat) (hpos : 0 < strlen s 0)
    (hlt : strlen s 0 < MAX_PAYLOAD) :
    send_uart_response s =
      [Event.uart_transmit [0xAA], Event.uart_transmit [strlen s 0],
       Event.uart_transmit (cstr s 0), Event.uart_transmit [(cstr s 0).sum % 256]] ∧
    txBytes (send_uart_response s) =
      0xAA :: strlen s 0 :: (cstr s 0 ++ [(cstr s 0).sum % 256]) ∧
    (cstr s 0).length = strlen s 0 ∧ cstr s 0 = s.take (strlen s 0) := by
  rw [send_uart_response_valid s hpos hlt]
  refine ⟨rfl, ?_, rfl, (take_strlen s).symm⟩
  simp [txBytes, FRAME_START]

theorem C8_witness :
    0 < strlen [76, 69, 68, 0, 9] 0 ∧ strlen [76, 69, 68, 0, 9] 0 < MAX_PAYLOAD ∧
    (send_uart_response [76, 69, 68, 0, 9] =
      [Event.uart_transmit [0xAA], Event.uart_transmit [strlen [76, 69, 68, 0, 9] 0],
       Event.uart_transmit (cstr [76, 69, 68, 0, 9] 0),
       Event.uart_transmit [(cstr [76, 69, 68, 0, 9] 0).sum % 256]] ∧
    txBytes (send_uart_response [76, 69, 68, 0, 9]) =
      0xAA :: strlen [76, 69, 68, 0, 9] 0 ::
        (cstr [76, 69, 68, 0, 9] 0 ++ [(cstr [76, 69, 68, 0, 9] 0).sum % 256]) ∧
    (cstr [76, 69, 68, 0, 9] 0).length = strlen [76, 69, 68, 0, 9] 0 ∧
    cstr [76, 69, 68, 0, 9] 0 = [76, 69, 68, 0, 9].take (strlen [76, 69, 68, 0, 9] 0)) :=
  ⟨by decide, by decide, C8_emitted_frame_layout [76, 69, 68, 0, 9] (by decide) (by decide)⟩

set_option maxRecDepth 100000 in
/-- C7 (failing input): a string of 257 characters 'A' has a length of at least 128, yet
`send_uart_response` transmits the four bytes 0xAA, 1, 'A', 'A': the length is cut to
eight bits before it is tested. -/
theorem C7_long_string_is_sent :
    strlen (List.replicate 257 65) 0 = 257 ∧
    txBytes (send_uart_response (List.replicate 257 65)) = [0xAA, 1, 65, 65] := by
  decide

/-- C2: round trip of emitter and parser.  For a string with `0 < strlen(s) < 128`, the
bytes transmitted by `send_uart_response(s)`, fed byte by byte to an idle parser, add
exactly one `handle_payload` call; its length argument is `strlen(s)`, its buffer holds
the characters of `s` followed by a terminator, the checksum byte on the wire is the
parser's accumulated checksum, and the parser ends idle. -/
theorem C2_emitter_parser_roundtrip (st : State) (s : List Nat)
    (h0 : st.parser_state = 0) (hbuf : st.payload_buf.length = MAX_PAYLOAD + 1)
    (hpos : 0 < strlen s 0) (hlt : strlen s 0 < MAX_PAYLOAD) :
    (∃ buf,
      handleCalls (feed st (txBytes (send_uart_response s))).log =
        handleCalls st.log ++ [(buf, strlen s 0)] ∧
      buf.take (strlen s 0) = cstr s 0 ∧ buf[strlen s 0]? = some 0) ∧
    (txBytes (send_uart_response s)).getLast? =
      some (feed st (txBytes (send_uart_response s))).checksum_accum ∧
    (feed st (txBytes (send_uart_response s))).parser_state = 0 := by
  have hl : (cstr s 0).length = strlen s 0 := rfl
  have hpos2 : 0 < (cstr s 0).length := hpos
  have hlt2 : (cstr s 0).length < MAX_PAYLOAD := hlt
  have hb : (cstr s 0).length ≤ st.payload_buf.length := by rw [hbuf]; omega
  have htx : txBytes (send_uart_response s) =
      FRAME_START :: (cstr s 0).length :: (cstr s 0 ++ [(cstr s 0).sum % 256]) := by
    rw [send_uart_response_valid s hpos hlt]
    simp [txBytes, strlen]
  rw [htx]
  refine ⟨?_, ?_, ?_⟩
  · have h := frame_dispatch st (cstr s 0) h0 hbuf hpos2 hlt2
    rw [hl] at h
    rw [hl]
    exact h
  · rw [feed_frame_ok st (cstr s 0) h0 hpos2 hlt2 hb]
    have e : FRAME_START :: (cstr s 0).length :: (cstr s 0 ++ [(cstr s 0).sum % 256]) =
        (FRAME_START :: (cstr s 0).length :: cstr s 0) ++ [(cstr s 0).sum % 256] := by simp
    rw [e, List.getLast?_concat]
  · rw [feed_frame_ok st (cstr s 0) h0 hpos2 hlt2 hb]

theorem C2_witness :
    State.init.parser_state = 0 ∧ State.init.payload_buf.length = MAX_PAYLOAD + 1 ∧
    0 < strlen [76, 69, 68, 0, 9] 0 ∧ strlen [76, 69, 68, 0, 9] 0 < MAX_PAYLOAD ∧
    ((∃ buf,
      handleCalls (feed State.init (txBytes (send_uart_response [76, 69, 68, 0, 9]))).log =
        handleCalls State.init.log ++ [(buf, strlen [76, 69, 68, 0, 9] 0)] ∧
      buf.take (strlen [76, 69, 68, 0, 9] 0) = cstr [76, 69, 68, 0, 9] 0 ∧
      buf[strlen [76, 69, 68, 0, 9] 0]? = some 0) ∧
    (txBytes (send_uart_response [76, 69, 68, 0, 9])).getLast? =
      some (feed State.init (txBytes (send_uart_response [76, 69, 68, 0, 9]))).checksum_accum ∧
    (feed State.init (txBytes (send_uart_response [76, 69, 68, 0, 9]))).parser_state = 0) :=
  ⟨rfl, List.length_replicate _ _, by decide, by decide,
    C2_emitter_parser_roundtrip State.init [76, 69, 68, 0, 9] rfl (List.length_replicate _ _)
      (by decide) (by decide)⟩

/-! ## RX queue -/

theorem queueWf_init : QueueWf State.init :=
  ⟨List.length_replicate _ _, by decide, by decide⟩

/-- The queue is empty exactly when the two cursors coincide. -/
theorem queueContents_eq_nil_iff (st : State) (hw : QueueWf st) :
    queueContents st = [] ↔ st.rx_q_head = st.rx_q_tail := by
  obtain ⟨_, hh, ht⟩ := hw
  simp only [RX_QUEUE_SIZE] at hh ht
  simp only [queueContents, queueCount, RX_QUEUE_SIZE, List.map_eq_nil_iff,
    List.range_eq_nil]
  omega

theorem queueContents_length (st : State) : (queueContents st).length = queueCount st := by
  simp [queueContents]

/-- An enqueue into a queue that holds fewer than 255 bytes appends the byte. -/
theorem enqueue_append (st : State) (b : Nat) (hw : QueueWf st)
    (hc : queueCount st < RX_QUEUE_SIZE - 1) :
    QueueWf (enqueue_rx_byte st b) ∧
    queueContents (enqueue_rx_byte st b) = queueContents st ++ [b] := by
  obtain ⟨hl, hh, ht⟩ := hw
  simp only [RX_QUEUE_SIZE] at hl hh ht
  simp only [queueCount, RX_QUEUE_SIZE] at hc
  have hne : (st.rx_q_head + 1) % 256 ≠ st.rx_q_tail := by omega
  have hstep : enqueue_rx_byte st b =
      { st with rx_queue := st.rx_queue.set st.rx_q_head b,
                rx_q_head := (st.rx_q_head + 1) % 256 } := by
    simp only [enqueue_rx_byte, RX_QUEUE_SIZE]
    rw [if_pos hne]
  rw [hstep]
  refine ⟨⟨by simp only [List.length_set, RX_QUEUE_SIZE]; exact hl,
    by simp only [RX_QUEUE_SIZE]; omega, by simp only [RX_QUEUE_SIZE]; exact ht⟩, ?_⟩
  have hcnt : ((st.rx_q_head + 1) % 256 + 256 - st.rx_q_tail) % 256 =
      (st.rx_q_head + 256 - st.rx_q_tail) % 256 + 1 := by omega
  simp only [queueContents, queueCount, RX_QUEUE_SIZE]
  rw [hcnt, List.range_succ, List.map_append]
  congr 1
  · apply List.map_congr_left
    intro i hi
    rw [List.mem_range] at hi
    have hidx : (st.rx_q_tail + i) % 256 ≠ st.rx_q_head := by omega
    simp only [List.getD_eq_getElem?_getD]
    rw [List.getElem?_set_ne (Ne.symm hidx)]
  · have hidx : (st.rx_q_tail + (st.rx_q_head + 256 - st.rx_q_tail) % 256) % 256 =
        st.rx_q_head := by omega
    simp only [List.map_cons, List.map_nil, hidx, List.getD_eq_getElem?_getD]
    rw [List.getElem?_set_self (by omega)]
    rfl

/-- An enqueue into a queue that already holds 255 bytes changes nothing: the byte is
dropped. -/
theorem enqueue_full (st : State) (b : Nat) (hw : QueueWf st)
    (hc : queueCount st = RX_QUEUE_SIZE - 1) : enqueue_rx_byte st b = st := by
  obtain ⟨_, hh, ht⟩ := hw
  simp only [RX_QUEUE_SIZE] at hh ht
  simp only [queueCount, RX_QUEUE_SIZE] at hc
  have he : (st.rx_q_head + 1) % 256 = st.rx_q_tail := by omega
  simp only [enqueue_rx_byte, RX_QUEUE_SIZE]
  rw [if_neg (by rw [he]; exact fun h => h rfl)]

/-- A dequeue from an empty queue returns false and changes nothing. -/
theorem dequeue_empty (st : State) (he : st.rx_q_head = st.rx_q_tail) :
    dequeue_rx_byte st = (none, st) := by
  simp only [dequeue_rx_byte]
  rw [if_pos he.symm]

/-- A dequeue from a non-empty queue returns the oldest byte and removes it. -/
theorem dequeue_cons (st : State) (hw : QueueWf st) (hne : st.rx_q_head ≠ st.rx_q_tail) :
    ∃ b rest, queueContents st = b :: rest ∧
      (dequeue_rx_byte st).1 = some b ∧
      QueueWf (dequeue_rx_byte st).2 ∧
      queueContents (dequeue_rx_byte st).2 = rest ∧
      (dequeue_rx_byte st).2.rx_q_head = st.rx_q_head ∧
      (dequeue_rx_byte st).2.rx_queue = st.rx_queue := by
  obtain ⟨hl, hh, ht⟩ := hw
  simp only [RX_QUEUE_SIZE] at hl hh ht
  have hstep : dequeue_rx_byte st =
      (some (st.rx_queue.getD st.rx_q_tail 0),
        { st with rx_q_tail := (st.rx_q_tail + 1) % 256 }) := by
    simp only [dequeue_rx_byte, RX_QUEUE_SIZE]
    rw [if_neg (fun h => hne h.symm)]
  have hcnt : (st.rx_q_head + 256 - st.rx_q_tail) % 256 =
      (st.rx_q_head + 256 - (st.rx_q_tail + 1) % 256) % 256 + 1 := by omega
  rw [hstep]
  refine ⟨st.rx_queue.getD st.rx_q_tail 0, _, ?_, rfl,
    ⟨by simp only [RX_QUEUE_SIZE]; exact hl, by simp only [RX_QUEUE_SIZE]; exact hh,
      by simp only [RX_QUEUE_SIZE]; omega⟩, rfl, rfl, rfl⟩
  simp only [queueContents, queueCount, RX_QUEUE_SIZE]
  rw [hcnt, List.range_succ_eq_map, List.map_cons, List.map_map]
  have h0 : (st.rx_q_tail + 0) % 256 = st.rx_q_tail := by omega
  rw [h0]
  congr 1
  apply List.map_congr_left
  intro i _
  have hidx : (st.rx_q_tail + (i + 1)) % 256 = ((st.rx_q_tail + 1) % 256 + i) % 256 := by omega
  simp only [Function.comp, Nat.succ_eq_add_one, hidx]

/-! ## RX queue: the shape invariant is preserved -/

theorem queueWf_enqueue (st : State) (b : Nat) (hw : QueueWf st) :
    QueueWf (enqueue_rx_byte st b) := by
  obtain ⟨hl, hh, ht⟩ := hw
  unfold enqueue_rx_byte
  simp only []
  split
  · exact ⟨by simp only [List.length_set]; exact hl,
      Nat.mod_lt _ (by decide), ht⟩
  · exact ⟨hl, hh, ht⟩

theorem queueWf_dequeue (st : State) (hw : QueueWf st) :
    QueueWf (dequeue_rx_byte st).2 := by
  obtain ⟨hl, hh, ht⟩ := hw
  unfold dequeue_rx_byte
  split
  · exact ⟨hl, hh, ht⟩
  · exact ⟨hl, hh, Nat.mod_lt _ (by decide)⟩

/-- Enqueueing bytes while there is room appends them in order. -/
theorem enqueueAll_append (bs : List Nat) : ∀ (st : State), QueueWf st →
    queueCount st + bs.length ≤ RX_QUEUE_SIZE - 1 →
    QueueWf (enqueueAll st bs) ∧ queueContents (enqueueAll st bs) = queueContents st ++ bs := by
  induction bs with
  | nil => intro st hw _; exact ⟨hw, by simp [enqueueAll]⟩
  | cons b bs ih =>
    intro st hw hc
    simp only [List.length_cons] at hc
    obtain ⟨hw1, hc1⟩ := enqueue_append st b hw (by omega)
    have hlen : queueCount (enqueue_rx_byte st b) = queueCount st + 1 := by
      rw [← queueContents_length, hc1, List.length_append, queueContents_length]
      rfl
    obtain ⟨hw2, hc2⟩ := ih (enqueue_rx_byte st b) hw1 (by rw [hlen]; omega)
    refine ⟨hw2, ?_⟩
    show queueContents (enqueueAll (enqueue_rx_byte st b) bs) = _
    rw [hc2, hc1, List.append_assoc]
    rfl

/-- Draining with enough fuel returns the whole contents, oldest first, and stops on a
`false` return of `dequeue_rx_byte`. -/
theorem drain_all (fuel : Nat) : ∀ (st : State), QueueWf st → queueCount st < fuel →
    ∃ st1, drain fuel st = (queueContents st, st1) ∧ dequeue_rx_byte st1 = (none, st1) ∧
      st1.rx_q_head = st.rx_q_head ∧ st1.rx_queue = st.rx_queue := by
  induction fuel with
  | zero => intro st _ h; exact absurd h (Nat.not_lt_zero _)
  | succ f ih =>
    intro st hw hc
    by_cases he : st.rx_q_head = st.rx_q_tail
    · refine ⟨st, ?_, dequeue_empty st he, rfl, rfl⟩
      rw [drain, dequeue_empty st he, (queueContents_eq_nil_iff st hw).2 he]
    · obtain ⟨b, rest, hcs, hb, hw1, hrest, hhd, hq⟩ := dequeue_cons st hw he
      have hlen : queueCount (dequeue_rx_byte st).2 + 1 = queueCount st := by
        rw [← queueContents_length, hrest, ← queueContents_length st, hcs]
        rfl
      obtain ⟨st1, hd, hstop, hhd1, hq1⟩ := ih (dequeue_rx_byte st).2 hw1 (by omega)
      refine ⟨st1, ?_, hstop, by rw [hhd1, hhd], by rw [hq1, hq]⟩
      have hpair : dequeue_rx_byte st = (some b, (dequeue_rx_byte st).2) := by
        rw [← hb]
      rw [drain, hpair]
      simp only [hd, hrest, hcs]

/-- C3: from an empty queue, 255 enqueued bytes come back from `dequeue_rx_byte`, called
until it returns false, as exactly those bytes in order; a 256th byte enqueued before
any dequeue is dropped (the state is the one after 255 bytes) and draining still yields
the first 255 bytes in order. -/
theorem C3_queue_capacity_and_overflow (st : State) (bs : List Nat) (x : Nat)
    (hw : QueueWf st) (hempty : st.rx_q_head = st.rx_q_tail) (hlen : bs.length = 255) :
    (∀ fuel, 255 < fuel →
      ∃ st1, drain fuel (enqueueAll st bs) = (bs, st1) ∧
        dequeue_rx_byte st1 = (none, st1)) ∧
    enqueueAll st (bs ++ [x]) = enqueueAll st bs ∧
    (∀ fuel, 255 < fuel →
      ∃ st1, drain fuel (enqueueAll st (bs ++ [x])) = (bs, st1) ∧
        dequeue_rx_byte st1 = (none, st1)) := by
  have hnil : queueContents st = [] := (queueContents_eq_nil_iff st hw).2 hempty
  have hcnt0 : queueCount st = 0 := by rw [← queueContents_length, hnil]; rfl
  obtain ⟨hw1, hc1⟩ := enqueueAll_append bs st hw (by rw [hcnt0, hlen]; decide)
  rw [hnil, List.nil_append] at hc1
  have hcnt1 : queueCount (enqueueAll st bs) = 255 := by
    rw [← queueContents_length, hc1, hlen]
  have hdrop : enqueueAll st (bs ++ [x]) = enqueueAll st bs := by
    simp only [enqueueAll, List.foldl_append, List.foldl_cons, List.foldl_nil]
    exact enqueue_full _ x hw1 hcnt1
  have hdrain : ∀ fuel, 255 < fuel →
      ∃ st1, drain fuel (enqueueAll st bs) = (bs, st1) ∧
        dequeue_rx_byte st1 = (none, st1) := by
    intro fuel hf
    obtain ⟨st1, hd, hstop, _, _⟩ := drain_all fuel (enqueueAll st bs) hw1 (by rw [hcnt1]; exact hf)
    rw [hc1] at hd
    exact ⟨st1, hd, hstop⟩
  refine ⟨hdrain, hdrop, ?_⟩
  rw [hdrop]
  exact hdrain

theorem C3_witness :
    QueueWf State.init ∧ State.init.rx_q_head = State.init.rx_q_tail ∧
    (List.range 255).length = 255 ∧
    ((∀ fuel, 255 < fuel →
      ∃ st1, drain fuel (enqueueAll State.init (List.range 255)) = (List.range 255, st1) ∧
        dequeue_rx_byte st1 = (none, st1)) ∧
    enqueueAll State.init (List.range 255 ++ [9]) = enqueueAll State.init (List.range 255) ∧
    (∀ fuel, 255 < fuel →
      ∃ st1, drain fuel (enqueueAll State.init (List.range 255 ++ [9])) =
          (List.range 255, st1) ∧
        dequeue_rx_byte st1 = (none, st1))) :=
  ⟨⟨List.length_replicate _ _, by decide, by decide⟩, rfl, List.length_range 255,
    C3_queue_capacity_and_overflow State.init (List.range 255) 9
      ⟨List.length_replicate _ _, by decide, by decide⟩ rfl (List.length_range 255)⟩

/-! ## Dispatcher: `trim_inplace` against `trimSpec`

A buffer that holds a string at offset `pre.length` is written `pre ++ str ++ 0 :: rest`
with no 0 byte in `str`. -/

theorem skipLeading_string (str rest : List Nat) :
    skipLeading (str ++ 0 :: rest) = (str.takeWhile isTrimChar).length := by
  induction str with
  | nil => rfl
  | cons c cs ih =>
    by_cases hc : isTrimChar c = true
    · have hne : (c != 0) = true := by
        rcases Nat.eq_zero_or_pos c with h | h
        · subst h; exact absurd hc (by decide)
        · simp; omega
      simp [skipLeading, hc, hne, ih, List.takeWhile_cons]
    · simp [skipLeading, hc, List.takeWhile_cons]

theorem takeWhile_string (str rest : List Nat) (hz : ∀ c ∈ str, c ≠ 0) :
    (str ++ 0 :: rest).takeWhile (fun c => c != 0) = str := by
  rw [List.takeWhile_append_of_pos (by intro a ha; simpa using hz a ha)]
  simp [List.takeWhile_cons]

theorem cstr_string (pre str rest : List Nat) (hz : ∀ c ∈ str, c ≠ 0) :
    cstr (pre ++ str ++ 0 :: rest) pre.length = str := by
  rw [cstr, List.append_assoc, List.drop_left, takeWhile_string str rest hz]

theorem cstr_string_drop (pre str rest : List Nat) (k : Nat) (hz : ∀ c ∈ str, c ≠ 0)
    (hk : k ≤ str.length) :
    cstr (pre ++ str ++ 0 :: rest) (pre.length + k) = str.drop k := by
  have e : pre ++ str ++ 0 :: rest = (pre ++ str.take k) ++ str.drop k ++ 0 :: rest := by
    conv_lhs => rw [← List.take_append_drop k str]
    simp only [List.append_assoc]
  have hl : (pre ++ str.take k).length = pre.length + k := by
    rw [List.length_append, List.length_take, Nat.min_eq_left hk]
  rw [e, ← hl]
  exact cstr_string _ _ _ (fun c hc => hz c (List.mem_of_mem_drop hc))

/-- The trailing loop: started with the length of the string, it cuts the trailing trim
characters by writing terminators over them. -/
theorem trimTrailing_string (str : List Nat) : ∀ (pre rest : List Nat),
    ∃ junk, trimTrailing (pre ++ str ++ 0 :: rest) pre.length str.length =
        pre ++ str.rdropWhile isTrimChar ++ 0 :: (junk ++ rest) ∧
      junk.length + (str.rdropWhile isTrimChar).length = str.length := by
  induction str using List.reverseRecOn with
  | nil => intro pre rest; exact ⟨[], rfl, rfl⟩
  | append_singleton init c ih =>
    intro pre rest
    have hget : (pre ++ (init ++ [c]) ++ 0 :: rest).getD (pre.length + init.length) 0 = c := by
      have e : pre ++ (init ++ [c]) ++ 0 :: rest = (pre ++ init) ++ c :: (0 :: rest) := by simp
      rw [e, ← List.length_append, List.getD_eq_getElem?_getD, List.getElem?_append_right (Nat.le_refl _)]
      simp
    have hset : (pre ++ (init ++ [c]) ++ 0 :: rest).set (pre.length + init.length) 0 =
        pre ++ init ++ 0 :: (0 :: rest) := by
      have e : pre ++ (init ++ [c]) ++ 0 :: rest = (pre ++ init) ++ c :: (0 :: rest) := by simp
      rw [e, ← List.length_append, List.set_append_right _ _ (Nat.le_refl _)]
      simp
    rw [List.length_append, List.length_singleton, trimTrailing]
    simp only [hget]
    by_cases hc : isTrimChar c = true
    · rw [if_pos hc, hset, List.rdropWhile_concat_pos _ _ _ hc]
      obtain ⟨junk, h1, h2⟩ := ih pre (0 :: rest)
      refine ⟨junk ++ [0], ?_, ?_⟩
      · rw [h1]; simp
      · simp only [List.length_append, List.length_singleton]; omega
    · rw [if_neg hc, List.rdropWhile_concat_neg _ _ _ hc]
      exact ⟨[], rfl, by simp⟩

/-- The leading half of `trim_inplace`: the string is moved down over its leading trim
characters, terminator included. -/
theorem trim_leading_string (pre str rest : List Nat) (hz : ∀ c ∈ str, c ≠ 0) :
    ∃ junk,
      (if pre.length + skipLeading ((pre ++ str ++ 0 :: rest).drop pre.length) ≠ pre.length then
          memmove (pre ++ str ++ 0 :: rest) pre.length
            (pre.length + skipLeading ((pre ++ str ++ 0 :: rest).drop pre.length))
            (strlen (pre ++ str ++ 0 :: rest)
              (pre.length + skipLeading ((pre ++ str ++ 0 :: rest).drop pre.length)) + 1)
        else pre ++ str ++ 0 :: rest) =
        pre ++ str.dropWhile isTrimChar ++ 0 :: (junk ++ rest) ∧
      junk.length + (str.dropWhile isTrimChar).length = str.length := by
  have hsplit : str.takeWhile isTrimChar ++ str.dropWhile isTrimChar = str :=
    List.takeWhile_append_dropWhile isTrimChar str
  have hdrop : (pre ++ str ++ 0 :: rest).drop pre.length = str ++ 0 :: rest := by
    rw [List.append_assoc, List.drop_left]
  rw [hdrop, skipLeading_string]
  generalize htw : str.takeWhile isTrimChar = tw at hsplit
  generalize hdw : str.dropWhile isTrimChar = dw at hsplit
  have hzd : ∀ c ∈ dw, c ≠ 0 := fun c hc => hz c (by rw [← hsplit]; exact List.mem_append_right _ hc)
  by_cases hk : tw.length = 0
  · have htn : tw = [] := List.length_eq_zero.mp hk
    rw [hk, Nat.add_zero, if_neg (fun h => h rfl)]
    subst htn
    rw [List.nil_append] at hsplit
    subst hsplit
    exact ⟨[], rfl, by simp⟩
  · rw [if_pos (by omega)]
    have hlen : str.length = tw.length + dw.length := by rw [← hsplit, List.length_append]
    have hstr : strlen (pre ++ str ++ 0 :: rest) (pre.length + tw.length) = dw.length := by
      rw [strlen, cstr_string_drop pre str rest tw.length hz (by omega), ← hsplit,
        List.drop_left]
    rw [hstr]
    refine ⟨(tw ++ dw ++ [0]).drop (dw.length + 1), ?_, ?_⟩
    · unfold memmove
      have h1 : (pre ++ str ++ 0 :: rest).take pre.length = pre := by
        rw [List.append_assoc, List.take_left]
      have h2 : (pre ++ str ++ 0 :: rest).drop (pre.length + tw.length) = dw ++ 0 :: rest := by
        rw [← hsplit]
        have e : pre ++ (tw ++ dw) ++ 0 :: rest = (pre ++ tw) ++ (dw ++ 0 :: rest) := by simp
        rw [e, ← List.length_append, List.drop_left]
      have h3 : (dw ++ 0 :: rest).take (dw.length + 1) = dw ++ [0] := by
        have e : dw ++ 0 :: rest = (dw ++ [0]) ++ rest := by simp
        rw [e]
        exact List.take_left' (by simp)
      have h4 : (pre ++ str ++ 0 :: rest).drop (pre.length + (dw.length + 1)) =
          (tw ++ dw ++ [0]).drop (dw.length + 1) ++ rest := by
        rw [← hsplit]
        have e : pre ++ (tw ++ dw) ++ 0 :: rest = pre ++ ((tw ++ dw ++ [0]) ++ rest) := by simp
        rw [e, List.drop_append, List.drop_append_of_le_length (by simp)]
      rw [h1, h2, h3, h4]
      simp
    · simp only [List.length_drop, List.length_append, List.length_singleton]
      omega

/-- Refinement of `trimSpec` by `trim_inplace`: on a buffer holding the string `str` at offset
`pre.length`, it leaves the bytes before the string alone, replaces the string by its
trimmed form with a terminator, and leaves everything behind the old terminator in
place. -/
theorem trim_inplace_string (pre str rest : List Nat) (hz : ∀ c ∈ str, c ≠ 0) :
    ∃ junk, trim_inplace (pre ++ str ++ 0 :: rest) pre.length =
        pre ++ trimSpec str ++ 0 :: (junk ++ rest) ∧
      junk.length + (trimSpec str).length = str.length := by
  obtain ⟨j1, h1, hl1⟩ := trim_leading_string pre str rest hz
  have hzd : ∀ c ∈ str.dropWhile isTrimChar, c ≠ 0 :=
    fun c hc => hz c ((List.dropWhile_sublist _).subset hc)
  obtain ⟨j2, h2, hl2⟩ := trimTrailing_string (str.dropWhile isTrimChar) pre (j1 ++ rest)
  refine ⟨j2 ++ j1, ?_, ?_⟩
  · unfold trim_inplace
    simp only []
    rw [h1, strlen, cstr_string pre _ _ hzd, h2, trimSpec, List.append_assoc j2]
  · rw [trimSpec, List.length_append]
    omega

/-! ## Dispatcher: the command branches -/

theorem trimSpec_subset (str : List Nat) : ∀ c ∈ trimSpec str, c ∈ str := by
  intro c hc
  have h1 : c ∈ str.dropWhile isTrimChar :=
    (List.rdropWhile_prefix isTrimChar _).subset hc
  exact (List.dropWhile_sublist _).subset h1

theorem trimSpec_no_zero (str : List Nat) (hz : ∀ c ∈ str, c ≠ 0) :
    ∀ c ∈ trimSpec str, c ≠ 0 := fun c hc => hz c (trimSpec_subset str c hc)

/-- The first step of the dispatcher: the buffer then starts with the trimmed payload. -/
theorem trim_inplace_payload (payload rest : List Nat) (hz : ∀ c ∈ payload, c ≠ 0) :
    ∃ junk, trim_inplace (payload ++ 0 :: rest) 0 = trimSpec payload ++ 0 :: (junk ++ rest) ∧
      junk.length + (trimSpec payload).length = payload.length :=
  trim_inplace_string [] payload rest hz

theorem strcmp_eq_string (pre str rest l : List Nat) (hz : ∀ c ∈ str, c ≠ 0) :
    strcmp_eq (pre ++ str ++ 0 :: rest) pre.length l = (str == l) := by
  rw [strcmp_eq, cstr_string pre str rest hz]

theorem strncmp_eq_string (pre str rest l : List Nat) (n : Nat) (hz : ∀ c ∈ str, c ≠ 0) :
    strncmp_eq (pre ++ str ++ 0 :: rest) pre.length l n = (str.take n == l.take n) := by
  rw [strncmp_eq, cstr_string pre str rest hz]

theorem strcmp_eq_payload (str rest l : List Nat) (hz : ∀ c ∈ str, c ≠ 0) :
    strcmp_eq (str ++ 0 :: rest) 0 l = (str == l) :=
  strcmp_eq_string [] str rest l hz

theorem strncmp_eq_payload (str rest l : List Nat) (n : Nat) (hz : ∀ c ∈ str, c ≠ 0) :
    strncmp_eq (str ++ 0 :: rest) 0 l n = (str.take n == l.take n) :=
  strncmp_eq_string [] str rest l n hz

/-- A payload that trims to "ping" is answered "ACK:pong", and nothing else happens. -/
theorem handle_payload_ping (payload rest : List Nat) (len : Nat)
    (hz : ∀ c ∈ payload, c ≠ 0) (hp : trimSpec payload = lit "ping") :
    (handle_payload (payload ++ 0 :: rest) len).2 = respond (lit "ACK:pong") := by
  obtain ⟨junk, hm, _⟩ := trim_inplace_payload payload rest hz
  have hzt := trimSpec_no_zero payload hz
  unfold handle_payload
  dsimp only
  rw [hm, strcmp_eq_payload _ _ _ hzt, hp]
  rfl

/-- A payload that trims to "led:" followed by some text: the answer depends on that text,
trimmed, only. -/
theorem handle_payload_led (payload rest : List Nat) (len : Nat)
    (hz : ∀ c ∈ payload, c ≠ 0) (hled : (trimSpec payload).take 4 = lit "led:") :
    (handle_payload (payload ++ 0 :: rest) len).2 =
      if trimSpec ((trimSpec payload).drop 4) = lit "on" then
        Event.gpio_write GPIO_PIN_SET :: respond (lit "LED:OK")
      else if trimSpec ((trimSpec payload).drop 4) = lit "off" then
        Event.gpio_write GPIO_PIN_RESET :: respond (lit "LED:OK")
      else respond (lit "LED:ERR") := by
  obtain ⟨junk, hm, _⟩ := trim_inplace_payload payload rest hz
  have hzt := trimSpec_no_zero payload hz
  generalize trimSpec payload = t at hm hzt hled ⊢
  have hzd : ∀ c ∈ t.drop 4, c ≠ 0 := fun c hc => hzt c (List.mem_of_mem_drop hc)
  have hzr := trimSpec_no_zero (t.drop 4) hzd
  have hnp : (t == lit "ping") = false := by
    apply beq_false_of_ne
    intro e
    rw [e] at hled
    exact absurd hled (by decide)
  have hl4 : (t.take 4).length = 0 + 4 := by rw [hled]; rfl
  have hsplit : t ++ 0 :: (junk ++ rest) = t.take 4 ++ t.drop 4 ++ 0 :: (junk ++ rest) := by
    rw [List.take_append_drop]
  obtain ⟨j2, hm2, _⟩ := trim_inplace_string (t.take 4) (t.drop 4) (junk ++ rest) hzd
  rw [← hsplit, hl4] at hm2
  have hon : strcmp_eq (t.take 4 ++ trimSpec (t.drop 4) ++ 0 :: (j2 ++ (junk ++ rest))) (0 + 4)
      (lit "on") = (trimSpec (t.drop 4) == lit "on") := by
    rw [← hl4]; exact strcmp_eq_string _ _ _ _ hzr
  have hoff : strcmp_eq (t.take 4 ++ trimSpec (t.drop 4) ++ 0 :: (j2 ++ (junk ++ rest))) (0 + 4)
      (lit "off") = (trimSpec (t.drop 4) == lit "off") := by
    rw [← hl4]; exact strcmp_eq_string _ _ _ _ hzr
  unfold handle_payload
  dsimp only
  rw [hm, strcmp_eq_payload _ _ _ hzt, hnp, strncmp_eq_payload _ _ _ _ hzt, hled, hm2, hon, hoff]
  simp only [Bool.false_eq_true, if_false]
  rw [if_pos (by decide)]
  by_cases h1 : trimSpec (t.drop 4) = lit "on"
  · rw [if_pos h1, if_pos (by rw [h1]; decide)]
  · rw [if_neg h1, if_neg (by simpa using h1)]
    by_cases h2 : trimSpec (t.drop 4) = lit "off"
    · rw [if_pos h2, if_pos (by rw [h2]; decide)]
    · rw [if_neg h2, if_neg (by simpa using h2)]

/-! ## Claims about the dispatcher -/

theorem responseStrings_valid :
    ∀ s ∈ responseStrings, 0 < strlen s 0 ∧ strlen s 0 < MAX_PAYLOAD ∧ cstr s 0 = s := by
  decide

/-- One dispatcher call: one response, out of the seven literals, sent as one frame. -/
theorem handle_payload_one_response (data : List Nat) (len : Nat) :
    ∃ s, s ∈ responseStrings ∧
      responses (handle_payload data len).2 = [s] ∧
      txBytes (handle_payload data len).2 =
        FRAME_START :: strlen s 0 :: (s ++ [s.sum % 256]) := by
  have hframe : ∀ s ∈ responseStrings,
      txBytes (respond s) = FRAME_START :: strlen s 0 :: (s ++ [s.sum % 256]) := by
    intro s hs
    obtain ⟨h1, h2, h3⟩ := responseStrings_valid s hs
    rw [txBytes_respond, send_uart_response_valid s h1 h2, h3]
    simp [txBytes]
  rcases handle_payload_events data len with ⟨s, hs, h⟩ | ⟨v, _, h⟩
  · exact ⟨s, hs, by rw [h, responses_respond], by rw [h, hframe s hs]⟩
  · have hs : lit "LED:OK" ∈ responseStrings :=
      (mem_responseStrings _).2 (Or.inr (Or.inl rfl))
    refine ⟨lit "LED:OK", hs, ?_, ?_⟩
    · rw [h]
      simp only [responses, responses_respond]
    · rw [h]
      simp only [txBytes]
      exact hframe _ hs

/-- C9: every `handle_payload` call makes exactly one `send_uart_response` call, its
argument is one of the seven literals, each of which has a length in 1..127, and the
bytes transmitted by the call are one complete frame carrying that literal.  Hence a
well-formed frame fed to an idle parser adds exactly one response and exactly one
transmitted frame. -/
theorem C9_exactly_one_response (data : List Nat) (len : Nat) :
    (∃ s,
      (s = lit "ACK:pong" ∨ s = lit "LED:OK" ∨ s = lit "LED:ERR" ∨ s = lit "MOTOR:OK" ∨
        s = lit "MOTOR:ERR:FORMAT" ∨ s = lit "MOTOR:ERR:BAD_ARGS" ∨ s = lit "UNKNOWN") ∧
      responses (handle_payload data len).2 = [s] ∧
      (0 < strlen s 0 ∧ strlen s 0 < MAX_PAYLOAD) ∧
      send_uart_response s ≠ [] ∧
      txBytes (handle_payload data len).2 =
        FRAME_START :: strlen s 0 :: (s ++ [s.sum % 256])) ∧
    (∀ (st : State) (bs : List Nat), st.parser_state = 0 →
      st.payload_buf.length = MAX_PAYLOAD + 1 → 0 < bs.length → bs.length < MAX_PAYLOAD →
      ∃ s, s ∈ responseStrings ∧
        responses (feed st (FRAME_START :: bs.length :: (bs ++ [bs.sum % 256]))).log =
          responses st.log ++ [s] ∧
        txBytes (feed st (FRAME_START :: bs.length :: (bs ++ [bs.sum % 256]))).log =
          txBytes st.log ++ FRAME_START :: strlen s 0 :: (s ++ [s.sum % 256])) := by
  constructor
  · obtain ⟨s, hs, hr, ht⟩ := handle_payload_one_response data len
    obtain ⟨h1, h2, _⟩ := responseStrings_valid s hs
    refine ⟨s, (mem_responseStrings s).1 hs, hr, ⟨h1, h2⟩, ?_, ht⟩
    rw [send_uart_response_valid s h1 h2]
    exact List.cons_ne_nil _ _
  · intro st bs h0 hbuf hpos hn
    have hb : bs.length ≤ st.payload_buf.length := by rw [hbuf]; omega
    obtain ⟨s, hs, hr, ht⟩ := handle_payload_one_response
      ((bs ++ st.payload_buf.drop bs.length).set bs.length 0) bs.length
    refine ⟨s, hs, ?_, ?_⟩
    · rw [feed_frame_ok st bs h0 hpos hn hb]
      simp only [responses_append, responses, hr]
    · rw [feed_frame_ok st bs h0 hpos hn hb]
      simp only [txBytes_append, txBytes, ht]

theorem C9_witness :
    State.init.parser_state = 0 ∧ State.init.payload_buf.length = MAX_PAYLOAD + 1 ∧
    0 < [120, 121, 122].length ∧ [120, 121, 122].length < MAX_PAYLOAD ∧
    ∃ s, s ∈ responseStrings ∧
      responses (feed State.init (FRAME_START :: [120, 121, 122].length ::
        ([120, 121, 122] ++ [[120, 121, 122].sum % 256]))).log =
          responses State.init.log ++ [s] ∧
      txBytes (feed State.init (FRAME_START :: [120, 121, 122].length ::
        ([120, 121, 122] ++ [[120, 121, 122].sum % 256]))).log =
          txBytes State.init.log ++ FRAME_START :: strlen s 0 :: (s ++ [s.sum % 256]) :=
  ⟨rfl, List.length_replicate _ _, by decide, by decide,
    (C9_exactly_one_response [] 0).2 State.init [120, 121, 122] rfl
      (List.length_replicate _ _) (by decide) (by decide)⟩

/-- C10: for a payload without 0 bytes whose trimmed text starts with "led:", with `r` the
trimmed remainder: if `r` is "on" the dispatcher writes the pin once, high, and responds
"LED:OK"; if `r` is "off" it writes the pin once, low, and responds "LED:OK"; for every
other `r` it responds "LED:ERR" and does not write the pin. -/
theorem C10_led_command (payload rest : List Nat) (len : Nat)
    (hz : ∀ c ∈ payload, c ≠ 0) (hled : (trimSpec payload).take 4 = lit "led:") :
    (trimSpec ((trimSpec payload).drop 4) = lit "on" →
      gpioWrites (handle_payload (payload ++ 0 :: rest) len).2 = [GPIO_PIN_SET] ∧
      responses (handle_payload (payload ++ 0 :: rest) len).2 = [lit "LED:OK"]) ∧
    (trimSpec ((trimSpec payload).drop 4) = lit "off" →
      gpioWrites (handle_payload (payload ++ 0 :: rest) len).2 = [GPIO_PIN_RESET] ∧
      responses (handle_payload (payload ++ 0 :: rest) len).2 = [lit "LED:OK"]) ∧
    (trimSpec ((trimSpec payload).drop 4) ≠ lit "on" →
      trimSpec ((trimSpec payload).drop 4) ≠ lit "off" →
      gpioWrites (handle_payload (payload ++ 0 :: rest) len).2 = [] ∧
      responses (handle_payload (payload ++ 0 :: rest) len).2 = [lit "LED:ERR"]) := by
  have h := handle_payload_led payload rest len hz hled
  refine ⟨?_, ?_, ?_⟩
  · intro hon
    rw [h, if_pos hon]
    simp only [gpioWrites, gpioWrites_respond, responses, responses_respond, and_self]
  · intro hoff
    have hne : trimSpec ((trimSpec payload).drop 4) ≠ lit "on" := by
      rw [hoff]; decide
    rw [h, if_neg hne, if_pos hoff]
    simp only [gpioWrites, gpioWrites_respond, responses, responses_respond, and_self]
  · intro h1 h2
    rw [h, if_neg h1, if_neg h2]
    simp only [gpioWrites_respond, responses_respond, and_self]

theorem C10_witness :
    (∀ c ∈ lit " led: on\r\n", c ≠ 0) ∧ (trimSpec (lit " led: on\r\n")).take 4 = lit "led:" ∧
    trimSpec ((trimSpec (lit " led: on\r\n")).drop 4) = lit "on" ∧
    gpioWrites (handle_payload (lit " led: on\r\n" ++ 0 :: [7, 7]) 10).2 = [GPIO_PIN_SET] ∧
    responses (handle_payload (lit " led: on\r\n" ++ 0 :: [7, 7]) 10).2 = [lit "LED:OK"] :=
  ⟨by decide, by decide, by decide,
    (C10_led_command (lit " led: on\r\n") [7, 7] 10 (by decide) (by decide)).1 (by decide)⟩

/-- The buffer handed to the dispatcher, written as payload, terminator, old bytes. -/
theorem frame_buffer_eq (bs buf : List Nat) (h : bs.length < buf.length) :
    (bs ++ buf.drop bs.length).set bs.length 0 = bs ++ 0 :: buf.drop (bs.length + 1) := by
  rw [List.set_append_right _ _ (Nat.le_refl _), Nat.sub_self]
  have hd : buf.drop bs.length = buf[bs.length] :: buf.drop (bs.length + 1) :=
    List.drop_eq_getElem_cons h
  rw [hd, List.set_cons_zero]

/-- C4 (as stated, refuted): the sum of 'p','i','n','g' modulo 256 is not 0xD2, and the
seven bytes 0xAA, 0x04, 'p','i','n','g', 0xD2 fed to the idle parser of the initial
state cause no dispatcher call and no transmission. -/
theorem C4_stated_checksum_rejected :
    ([112, 105, 110, 103] : List Nat).sum % 256 ≠ 0xD2 ∧
    handleCalls (feed State.init [0xAA, 0x04, 112, 105, 110, 103, 0xD2]).log = [] ∧
    txBytes (feed State.init [0xAA, 0x04, 112, 105, 110, 103, 0xD2]).log = [] := by
  decide

/-- C4 (amended): the sum of 'p','i','n','g' modulo 256 is 0xAE, and the seven bytes
0xAA, 0x04, 'p','i','n','g', 0xAE fed to an idle parser call the dispatcher once, with
the payload "ping", which responds "ACK:pong"; the bytes transmitted are the frame
0xAA, 8, "ACK:pong", 0xBD, and that frame, fed to an idle parser, is dispatched with the
payload "ACK:pong". -/
theorem C4_ping_scenario (st : State)
    (h0 : st.parser_state = 0) (hbuf : st.payload_buf.length = MAX_PAYLOAD + 1) :
    (lit "ping").sum % 256 = 0xAE ∧
    (∃ buf,
      handleCalls (feed st [0xAA, 0x04, 112, 105, 110, 103, 0xAE]).log =
        handleCalls st.log ++ [(buf, 4)] ∧
      buf.take 4 = lit "ping" ∧ buf[4]? = some 0) ∧
    responses (feed st [0xAA, 0x04, 112, 105, 110, 103, 0xAE]).log =
      responses st.log ++ [lit "ACK:pong"] ∧
    txBytes (feed st [0xAA, 0x04, 112, 105, 110, 103, 0xAE]).log =
      txBytes st.log ++ 0xAA :: 8 :: (lit "ACK:pong" ++ [0xBD]) ∧
    (∀ st2 : State, st2.parser_state = 0 → st2.payload_buf.length = MAX_PAYLOAD + 1 →
      ∃ buf2,
        handleCalls (feed st2 (0xAA :: 8 :: (lit "ACK:pong" ++ [0xBD]))).log =
          handleCalls st2.log ++ [(buf2, 8)] ∧
        buf2.take 8 = lit "ACK:pong" ∧ buf2[8]? = some 0) := by
  have hframe : ([0xAA, 0x04, 112, 105, 110, 103, 0xAE] : List Nat) =
      FRAME_START :: (lit "ping").length :: (lit "ping" ++ [(lit "ping").sum % 256]) := by
    decide
  have hresp : (0xAA :: 8 :: (lit "ACK:pong" ++ [0xBD]) : List Nat) =
      FRAME_START :: (lit "ACK:pong").length ::
        (lit "ACK:pong" ++ [(lit "ACK:pong").sum % 256]) := by
    decide
  have hb : (lit "ping").length ≤ st.payload_buf.length := by rw [hbuf]; decide
  have hb2 : (lit "ping").length < st.payload_buf.length := by rw [hbuf]; decide
  have hev : (handle_payload
      ((lit "ping" ++ st.payload_buf.drop (lit "ping").length).set (lit "ping").length 0)
      (lit "ping").length).2 = respond (lit "ACK:pong") := by
    rw [frame_buffer_eq _ _ hb2]
    exact handle_payload_ping (lit "ping") _ _ (by decide) (by decide)
  have htx : txBytes (respond (lit "ACK:pong")) = 0xAA :: 8 :: (lit "ACK:pong" ++ [0xBD]) := by
    decide
  refine ⟨by decide, ?_, ?_, ?_, ?_⟩
  · rw [hframe]
    exact frame_dispatch st (lit "ping") h0 hbuf (by decide) (by decide)
  · rw [hframe, feed_frame_ok st (lit "ping") h0 (by decide) (by decide) hb, hev]
    simp only [responses_append, responses, responses_respond]
  · rw [hframe, feed_frame_ok st (lit "ping") h0 (by decide) (by decide) hb, hev]
    simp only []
    rw [txBytes_append]
    exact congrArg (fun l => txBytes st.log ++ l) htx
  · intro st2 h2 hbuf2
    rw [hresp]
    exact frame_dispatch st2 (lit "ACK:pong") h2 hbuf2 (by decide) (by decide)

theorem C4_witness :
    State.init.parser_state = 0 ∧ State.init.payload_buf.length = MAX_PAYLOAD + 1 ∧
    responses (feed State.init [0xAA, 0x04, 112, 105, 110, 103, 0xAE]).log =
      responses State.init.log ++ [lit "ACK:pong"] ∧
    txBytes (feed State.init [0xAA, 0x04, 112, 105, 110, 103, 0xAE]).log =
      txBytes State.init.log ++ 0xAA :: 8 :: (lit "ACK:pong" ++ [0xBD]) :=
  ⟨rfl, List.length_replicate _ _,
    (C4_ping_scenario State.init rfl (List.length_replicate _ _)).2.2.1,
    (C4_ping_scenario State.init rfl (List.length_replicate _ _)).2.2.2.1⟩

/-! ## Dispatcher: the motor branch -/

theorem strchr_string (pre str rest : List Nat) (c : Nat) (hz : ∀ x ∈ str, x ≠ 0) :
    strchr (pre ++ str ++ 0 :: rest) pre.length c =
      if c ∈ str then some (pre.length + (str.takeWhile (fun x => x != c)).length)
      else none := by
  rw [strchr, cstr_string pre str rest hz]

/-- A string that contains ':' is the text before the first ':', the ':' and the text
after it. -/
theorem split_at_colon (p : List Nat) (h : 58 ∈ p) :
    p = beforeColon p ++ 58 :: afterColon p := by
  induction p with
  | nil => simp at h
  | cons x xs ih =>
    by_cases hx : x = 58
    · subst hx
      simp [beforeColon, afterColon, List.takeWhile_cons]
    · have hin : 58 ∈ xs := by
        rcases List.mem_cons.1 h with h1 | h1
        · exact absurd h1.symm hx
        · exact h1
      have hb : beforeColon (x :: xs) = x :: beforeColon xs := by
        simp [beforeColon, List.takeWhile_cons, hx]
      have ha : afterColon (x :: xs) = afterColon xs := by
        simp [afterColon, hb]
      rw [hb, ha, List.cons_append, ← ih hin]

theorem beforeColon_subset (p : List Nat) : ∀ c ∈ beforeColon p, c ∈ p :=
  fun _ hc => (List.takeWhile_sublist _).subset hc

theorem afterColon_subset (p : List Nat) : ∀ c ∈ afterColon p, c ∈ p :=
  fun _ hc => List.mem_of_mem_drop hc

/-- A payload that trims to "motor:" followed by some text: the answer depends only on
the trimmed text before and after the first ':' of the trimmed remainder. -/
theorem handle_payload_motor (payload rest : List Nat) (len : Nat)
    (hz : ∀ c ∈ payload, c ≠ 0) (hmot : (trimSpec payload).take 6 = lit "motor:") :
    (handle_payload (payload ++ 0 :: rest) len).2 =
      if 58 ∈ trimSpec ((trimSpec payload).drop 6) then
        if trimSpec (beforeColon (trimSpec ((trimSpec payload).drop 6))) ≠ [] ∧
            (trimSpec (beforeColon (trimSpec ((trimSpec payload).drop 6)))).all isDigitChar
              = true ∧
            (trimSpec (afterColon (trimSpec ((trimSpec payload).drop 6))) = lit "0" ∨
              trimSpec (afterColon (trimSpec ((trimSpec payload).drop 6))) = lit "1") then
          respond (lit "MOTOR:OK")
        else respond (lit "MOTOR:ERR:BAD_ARGS")
      else respond (lit "MOTOR:ERR:FORMAT") := by
  obtain ⟨junk, hm, _⟩ := trim_inplace_payload payload rest hz
  have hzt := trimSpec_no_zero payload hz
  generalize trimSpec payload = t at hm hzt hmot ⊢
  generalize junk ++ rest = R0 at hm
  have hzd : ∀ c ∈ t.drop 6, c ≠ 0 := fun c hc => hzt c (List.mem_of_mem_drop hc)
  have hzp := trimSpec_no_zero (t.drop 6) hzd
  have hnp : (t == lit "ping") = false := by
    apply beq_false_of_ne
    intro e
    rw [e] at hmot
    exact absurd hmot (by decide)
  have hnl : (t.take 4 == (lit "led:").take 4) = false := by
    apply beq_false_of_ne
    intro e
    have h4 : (t.take 6).take 4 = t.take 4 := by rw [List.take_take]; rfl
    rw [hmot] at h4
    rw [← h4] at e
    exact absurd e (by decide)
  have hl6 : (t.take 6).length = 0 + 6 := by rw [hmot]; rfl
  have hsplit : t ++ 0 :: R0 = t.take 6 ++ t.drop 6 ++ 0 :: R0 := by
    rw [List.take_append_drop]
  obtain ⟨j2, hm2, _⟩ := trim_inplace_string (t.take 6) (t.drop 6) R0 hzd
  rw [← hsplit, hl6] at hm2
  generalize trimSpec (t.drop 6) = p at hm2 hzp ⊢
  generalize j2 ++ R0 = R1 at hm2
  have hchr := strchr_string (t.take 6) p R1 58 hzp
  rw [hl6] at hchr
  unfold handle_payload
  dsimp only
  rw [hm, strcmp_eq_payload _ _ _ hzt, hnp, strncmp_eq_payload _ _ _ _ hzt, hnl,
    strncmp_eq_payload _ _ _ _ hzt, hmot, hm2, hchr]
  simp only [Bool.false_eq_true, if_false]
  rw [if_pos (by decide)]
  by_cases hcol : 58 ∈ p
  · rw [if_pos hcol, if_pos hcol]
    dsimp only
    have ha : List.takeWhile (fun x => x != 58) p = beforeColon p := rfl
    rw [ha]
    have hp := split_at_colon p hcol
    have hza : ∀ c ∈ beforeColon p, c ≠ 0 := fun c hc => hzp c (beforeColon_subset p c hc)
    have hzb : ∀ c ∈ afterColon p, c ≠ 0 := fun c hc => hzp c (afterColon_subset p c hc)
    have hzsa := trimSpec_no_zero _ hza
    have hzsb := trimSpec_no_zero _ hzb
    generalize beforeColon p = a at hp hza hzsa ⊢
    generalize afterColon p = b at hp hzb hzsb ⊢
    -- the ':' is overwritten by a terminator
    have hset : (t.take 6 ++ p ++ 0 :: R1).set (0 + 6 + a.length) 0 =
        t.take 6 ++ a ++ 0 :: (b ++ 0 :: R1) := by
      have e : t.take 6 ++ p ++ 0 :: R1 = (t.take 6 ++ a) ++ 58 :: (b ++ 0 :: R1) := by
        rw [hp]; simp
      have el : 0 + 6 + a.length = (t.take 6 ++ a).length := by
        rw [List.length_append, hl6]
      rw [e, el, List.set_append_right _ _ (Nat.le_refl _), Nat.sub_self, List.set_cons_zero]
    -- the steps string is trimmed; the text behind its terminator stays in place
    obtain ⟨j3, hm3, hl3⟩ := trim_inplace_string (t.take 6) a (b ++ 0 :: R1) hza
    rw [hl6] at hm3
    have hpre : t.take 6 ++ trimSpec a ++ 0 :: (j3 ++ (b ++ 0 :: R1)) =
        (t.take 6 ++ trimSpec a ++ 0 :: j3) ++ b ++ 0 :: R1 := by simp
    have hlpre : (t.take 6 ++ trimSpec a ++ 0 :: j3).length = 0 + 6 + a.length + 1 := by
      simp only [List.length_append, List.length_cons, hl6]
      omega
    -- the direction string is trimmed
    obtain ⟨j4, hm4, _⟩ := trim_inplace_string (t.take 6 ++ trimSpec a ++ 0 :: j3) b R1 hzb
    rw [hlpre] at hm4
    have hsteps : cstr ((t.take 6 ++ trimSpec a ++ 0 :: j3) ++ trimSpec b ++ 0 :: (j4 ++ R1))
        (0 + 6) = trimSpec a := by
      have e : (t.take 6 ++ trimSpec a ++ 0 :: j3) ++ trimSpec b ++ 0 :: (j4 ++ R1) =
          t.take 6 ++ trimSpec a ++ 0 :: (j3 ++ trimSpec b ++ 0 :: (j4 ++ R1)) := by simp
      rw [e, ← hl6]
      exact cstr_string _ _ _ hzsa
    have hdir : ∀ l, strcmp_eq
        ((t.take 6 ++ trimSpec a ++ 0 :: j3) ++ trimSpec b ++ 0 :: (j4 ++ R1))
        (0 + 6 + a.length + 1) l = (trimSpec b == l) := by
      intro l
      rw [← hlpre]
      exact strcmp_eq_string _ _ _ _ hzsb
    rw [hset, hm3, hpre, hm4, strlen, hsteps, hdir, hdir]
    generalize trimSpec a = steps
    generalize trimSpec b = dir
    generalize lit "0" = z0
    generalize lit "1" = z1
    by_cases h1 : steps = []
    · subst h1
      simp
    · have hlen : steps.length ≠ 0 := fun h => h1 (List.length_eq_zero.mp h)
      by_cases h2 : steps.all isDigitChar = true
      · by_cases h3 : dir = z0
        · simp [h1, hlen, h2, h3]
        · by_cases h4 : dir = z1
          · simp [h1, hlen, h2, h4]
          · simp [h1, hlen, h2, h3, h4]
      · simp [h1, h2]
  · rw [if_neg hcol, if_neg hcol]

/-- A payload whose trimmed text is no recognised command form is answered "UNKNOWN". -/
theorem handle_payload_unknown (payload rest : List Nat) (len : Nat)
    (hz : ∀ c ∈ payload, c ≠ 0) (hp : trimSpec payload ≠ lit "ping")
    (hl : (trimSpec payload).take 4 ≠ lit "led:")
    (hmo : (trimSpec payload).take 6 ≠ lit "motor:") :
    (handle_payload (payload ++ 0 :: rest) len).2 = respond (lit "UNKNOWN") := by
  obtain ⟨junk, hm, _⟩ := trim_inplace_payload payload rest hz
  have hzt := trimSpec_no_zero payload hz
  generalize trimSpec payload = t at hm hzt hp hl hmo ⊢
  have h1 : (t == lit "ping") = false := beq_false_of_ne hp
  have h2 : (t.take 4 == (lit "led:").take 4) = false := beq_false_of_ne hl
  have h3 : (t.take 6 == (lit "motor:").take 6) = false := beq_false_of_ne hmo
  unfold handle_payload
  dsimp only
  rw [hm, strcmp_eq_payload _ _ _ hzt, h1, strncmp_eq_payload _ _ _ _ hzt, h2,
    strncmp_eq_payload _ _ _ _ hzt, h3]
  simp only [Bool.false_eq_true, if_false]

/-- Refinement of `dispatchSpec` by `handle_payload`: on a buffer that holds a payload
without 0 bytes followed by a terminator, the events of the call are those the
specification's dispatch gives for the payload, whatever lies behind the terminator and
whatever length is passed. -/
theorem handle_payload_refines (payload rest : List Nat) (len : Nat)
    (hz : ∀ c ∈ payload, c ≠ 0) :
    (handle_payload (payload ++ 0 :: rest) len).2 = dispatchSpec payload := by
  unfold dispatchSpec
  dsimp only
  by_cases hp : trimSpec payload = lit "ping"
  · rw [if_pos hp]
    exact handle_payload_ping payload rest len hz hp
  · rw [if_neg hp]
    by_cases hl : (trimSpec payload).take 4 = lit "led:"
    · rw [if_pos hl]
      exact handle_payload_led payload rest len hz hl
    · rw [if_neg hl]
      by_cases hmo : (trimSpec payload).take 6 = lit "motor:"
      · rw [if_pos hmo]
        exact handle_payload_motor payload rest len hz hmo
      · rw [if_neg hmo]
        exact handle_payload_unknown payload rest len hz hp hl hmo

/-! ## Claims about the dispatcher: motor, ping, fallback -/

theorem all_isDigitChar_iff (l : List Nat) :
    l.all isDigitChar = true ↔ ∀ c ∈ l, 48 ≤ c ∧ c ≤ 57 := by
  simp [List.all_eq_true, isDigitChar]

/-- C11: for a payload without 0 bytes whose trimmed text starts with "motor:", with `p`
the trimmed remainder: if `p` has no ':' the response is "MOTOR:ERR:FORMAT"; otherwise,
with `steps` the trimmed text before the first ':' of `p` and `dir` the trimmed text
after it, the response is "MOTOR:OK" exactly when `steps` is a non-empty string of
digits '0'..'9' and `dir` is "0" or "1", and "MOTOR:ERR:BAD_ARGS" in every other case.
The pin is never written. -/
theorem C11_motor_command (payload rest : List Nat) (len : Nat)
    (hz : ∀ c ∈ payload, c ≠ 0) (hmot : (trimSpec payload).take 6 = lit "motor:") :
    (58 ∉ trimSpec ((trimSpec payload).drop 6) →
      responses (handle_payload (payload ++ 0 :: rest) len).2 = [lit "MOTOR:ERR:FORMAT"]) ∧
    (58 ∈ trimSpec ((trimSpec payload).drop 6) →
      (responses (handle_payload (payload ++ 0 :: rest) len).2 = [lit "MOTOR:OK"] ↔
        (trimSpec (beforeColon (trimSpec ((trimSpec payload).drop 6))) ≠ [] ∧
          (∀ c ∈ trimSpec (beforeColon (trimSpec ((trimSpec payload).drop 6))),
            48 ≤ c ∧ c ≤ 57) ∧
          (trimSpec (afterColon (trimSpec ((trimSpec payload).drop 6))) = lit "0" ∨
            trimSpec (afterColon (trimSpec ((trimSpec payload).drop 6))) = lit "1"))) ∧
      (responses (handle_payload (payload ++ 0 :: rest) len).2 = [lit "MOTOR:OK"] ∨
        responses (handle_payload (payload ++ 0 :: rest) len).2 =
          [lit "MOTOR:ERR:BAD_ARGS"])) ∧
    gpioWrites (handle_payload (payload ++ 0 :: rest) len).2 = [] := by
  have h := handle_payload_motor payload rest len hz hmot
  rw [h]
  generalize trimSpec ((trimSpec payload).drop 6) = p
  refine ⟨?_, ?_, ?_⟩
  · intro hcol
    rw [if_neg hcol, responses_respond]
  · intro hcol
    rw [if_pos hcol, ← all_isDigitChar_iff]
    generalize trimSpec (beforeColon p) = steps
    generalize trimSpec (afterColon p) = dir
    by_cases hc : steps ≠ [] ∧ steps.all isDigitChar = true ∧ (dir = lit "0" ∨ dir = lit "1")
    · rw [if_pos hc, responses_respond]
      exact ⟨⟨fun _ => hc, fun _ => rfl⟩, Or.inl rfl⟩
    · rw [if_neg hc, responses_respond]
      refine ⟨⟨fun e => absurd e (by decide), fun e => absurd e hc⟩, Or.inr rfl⟩
  · split
    · split <;> exact gpioWrites_respond _
    · exact gpioWrites_respond _

theorem C11_witness :
    (∀ c ∈ lit "motor:10:1", c ≠ 0) ∧ (trimSpec (lit "motor:10:1")).take 6 = lit "motor:" ∧
    58 ∈ trimSpec ((trimSpec (lit "motor:10:1")).drop 6) ∧
    responses (handle_payload (lit "motor:10:1" ++ 0 :: [7]) 10).2 = [lit "MOTOR:OK"] ∧
    responses (handle_payload (lit "motor:abc:1" ++ 0 :: [7]) 11).2 =
      [lit "MOTOR:ERR:BAD_ARGS"] ∧
    responses (handle_payload (lit "motor:10" ++ 0 :: [7]) 8).2 = [lit "MOTOR:ERR:FORMAT"] :=
  ⟨by decide, by decide, by decide,
    ((C11_motor_command (lit "motor:10:1") [7] 10 (by decide) (by decide)).2.1
      (by decide)).1.2 (by decide),
    by decide, by decide⟩

/-- C12: for a payload without 0 bytes, the response is "ACK:pong" if and only if the
payload with all leading and trailing space, tab, CR and LF bytes removed is exactly
"ping". -/
theorem C12_ping_exact_match (payload rest : List Nat) (len : Nat)
    (hz : ∀ c ∈ payload, c ≠ 0) :
    responses (handle_payload (payload ++ 0 :: rest) len).2 = [lit "ACK:pong"] ↔
      trimSpec payload = lit "ping" := by
  constructor
  · intro hr
    by_contra hp
    by_cases hl : (trimSpec payload).take 4 = lit "led:"
    · rw [handle_payload_led payload rest len hz hl] at hr
      revert hr
      split
      · simp only [responses, responses_respond]; decide
      · split
        · simp only [responses, responses_respond]; decide
        · simp only [responses_respond]; decide
    · by_cases hmo : (trimSpec payload).take 6 = lit "motor:"
      · rw [handle_payload_motor payload rest len hz hmo] at hr
        revert hr
        split
        · split
          · simp only [responses_respond]; decide
          · simp only [responses_respond]; decide
        · simp only [responses_respond]; decide
      · rw [handle_payload_unknown payload rest len hz hp hl hmo, responses_respond] at hr
        exact absurd hr (by decide)
  · intro hp
    rw [handle_payload_ping payload rest len hz hp, responses_respond]

theorem C12_witness :
    (∀ c ∈ lit " ping\r\n", c ≠ 0) ∧ trimSpec (lit " ping\r\n") = lit "ping" ∧
    responses (handle_payload (lit " ping\r\n" ++ 0 :: [7]) 7).2 = [lit "ACK:pong"] ∧
    responses (handle_payload (lit "PING" ++ 0 :: [7]) 4).2 ≠ [lit "ACK:pong"] ∧
    responses (handle_payload (lit "pingx" ++ 0 :: [7]) 5).2 ≠ [lit "ACK:pong"] ∧
    responses (handle_payload (lit "pi ng" ++ 0 :: [7]) 5).2 ≠ [lit "ACK:pong"] :=
  ⟨by decide, by decide,
    (C12_ping_exact_match (lit " ping\r\n") [7] 7 (by decide)).2 (by decide),
    by decide, by decide, by decide⟩

/-- C13: for a payload without 0 bytes, the response is "UNKNOWN" if and only if the
trimmed payload text is not "ping", does not start with "led:" and does not start with
"motor:". -/
theorem C13_unknown_fallback (payload rest : List Nat) (len : Nat)
    (hz : ∀ c ∈ payload, c ≠ 0) :
    responses (handle_payload (payload ++ 0 :: rest) len).2 = [lit "UNKNOWN"] ↔
      (trimSpec payload ≠ lit "ping" ∧ (trimSpec payload).take 4 ≠ lit "led:" ∧
        (trimSpec payload).take 6 ≠ lit "motor:") := by
  constructor
  · intro hr
    refine ⟨?_, ?_, ?_⟩
    · intro hp
      rw [handle_payload_ping payload rest len hz hp, responses_respond] at hr
      exact absurd hr (by decide)
    · intro hl
      rw [handle_payload_led payload rest len hz hl] at hr
      revert hr
      split
      · simp only [responses, responses_respond]; decide
      · split
        · simp only [responses, responses_respond]; decide
        · simp only [responses_respond]; decide
    · intro hmo
      rw [handle_payload_motor payload rest len hz hmo] at hr
      revert hr
      split
      · split
        · simp only [responses_respond]; decide
        · simp only [responses_respond]; decide
      · simp only [responses_respond]; decide
  · rintro ⟨hp, hl, hmo⟩
    rw [handle_payload_unknown payload rest len hz hp hl hmo, responses_respond]

theorem C13_witness :
    (∀ c ∈ lit "xyz", c ≠ 0) ∧
    (trimSpec (lit "xyz") ≠ lit "ping" ∧ (trimSpec (lit "xyz")).take 4 ≠ lit "led:" ∧
      (trimSpec (lit "xyz")).take 6 ≠ lit "motor:") ∧
    responses (handle_payload (lit "xyz" ++ 0 :: [7]) 3).2 = [lit "UNKNOWN"] ∧
    responses (handle_payload (lit " \t\r\n" ++ 0 :: [7]) 4).2 = [lit "UNKNOWN"] :=
  ⟨by decide, by decide,
    (C13_unknown_fallback (lit "xyz") [7] 3 (by decide)).2 (by decide),
    by decide⟩

/-! ## RX queue: refinement of the bounded FIFO list -/

theorem queueCount_lt (st : State) : queueCount st < RX_QUEUE_SIZE :=
  Nat.mod_lt _ (by decide)

/-- One enqueue on the ring is one enqueue on the abstract list. -/
theorem enqueue_refines (st : State) (b : Nat) (hw : QueueWf st) :
    queueContents (enqueue_rx_byte st b) = fifoEnqueue (queueContents st) b := by
  have hlt := queueCount_lt st
  simp only [RX_QUEUE_SIZE] at hlt
  rw [fifoEnqueue, queueContents_length]
  by_cases hc : queueCount st < RX_QUEUE_SIZE - 1
  · rw [if_pos hc]
    exact (enqueue_append st b hw hc).2
  · rw [if_neg hc, enqueue_full st b hw (by simp only [RX_QUEUE_SIZE] at hc ⊢; omega)]

/-- One dequeue on the ring is one dequeue on the abstract list. -/
theorem dequeue_refines (st : State) (hw : QueueWf st) :
    (dequeue_rx_byte st).1 = (fifoDequeue (queueContents st)).1 ∧
    queueContents (dequeue_rx_byte st).2 = (fifoDequeue (queueContents st)).2 := by
  by_cases he : st.rx_q_head = st.rx_q_tail
  · have hnil := (queueContents_eq_nil_iff st hw).2 he
    rw [dequeue_empty st he, hnil]
    exact ⟨rfl, rfl⟩
  · obtain ⟨b, rest, hcs, hb, _, hrest, _, _⟩ := dequeue_cons st hw he
    rw [hcs, hb, hrest]
    exact ⟨rfl, rfl⟩

/-- Simulation: from a well-shaped state, a run of queue calls on the ring and the same
run on the abstract list stay related and return the same results. -/
theorem runQueue_refines (ops : List QueueOp) : ∀ (st : State), QueueWf st →
    QueueWf (runQueue st ops).1 ∧
    queueContents (runQueue st ops).1 = (runFifo (queueContents st) ops).1 ∧
    (runQueue st ops).2 = (runFifo (queueContents st) ops).2 := by
  induction ops with
  | nil => intro st hw; exact ⟨hw, rfl, rfl⟩
  | cons op ops ih =>
    intro st hw
    cases op with
    | enqueue b =>
      obtain ⟨h1, h2, h3⟩ := ih (enqueue_rx_byte st b) (queueWf_enqueue st b hw)
      rw [enqueue_refines st b hw] at h2 h3
      exact ⟨h1, h2, h3⟩
    | dequeue =>
      obtain ⟨h1, h2, h3⟩ := ih (dequeue_rx_byte st).2 (queueWf_dequeue st hw)
      obtain ⟨hd1, hd2⟩ := dequeue_refines st hw
      rw [hd2] at h2 h3
      refine ⟨h1, h2, ?_⟩
      show (dequeue_rx_byte st).1 :: (runQueue (dequeue_rx_byte st).2 ops).2 =
        (fifoDequeue (queueContents st)).1 :: (runFifo (fifoDequeue (queueContents st)).2 ops).2
      rw [hd1, h3]

theorem queueContents_init : queueContents State.init = [] :=
  (queueContents_eq_nil_iff State.init queueWf_init).2 rfl

/-- C14: the ring buffer refines a bounded FIFO list of capacity 255.  After every
sequence of enqueue and dequeue calls from the initial state, with the state related to
the list `rx_queue[tail], ..., rx_queue[head-1 mod 256]`: the list and the dequeue
results are those of the same calls run on the FIFO list; an enqueue appends its byte
when fewer than 255 bytes are held and leaves the list unchanged otherwise; the list
is empty exactly when `rx_q_head == rx_q_tail`, and then a dequeue returns false and
changes nothing; otherwise a dequeue returns the first element and removes it. -/
theorem C14_ring_refines_fifo (ops : List QueueOp) :
    queueContents (runQueue State.init ops).1 = (runFifo [] ops).1 ∧
    (runQueue State.init ops).2 = (runFifo [] ops).2 ∧
    (queueContents (runQueue State.init ops).1).length ≤ 255 ∧
    (∀ b, queueContents (enqueue_rx_byte (runQueue State.init ops).1 b) =
      if (queueContents (runQueue State.init ops).1).length < 255 then
        queueContents (runQueue State.init ops).1 ++ [b]
      else queueContents (runQueue State.init ops).1) ∧
    (queueContents (runQueue State.init ops).1 = [] ↔
      (runQueue State.init ops).1.rx_q_head = (runQueue State.init ops).1.rx_q_tail) ∧
    (queueContents (runQueue State.init ops).1 = [] →
      dequeue_rx_byte (runQueue State.init ops).1 = (none, (runQueue State.init ops).1)) ∧
    (∀ x xs, queueContents (runQueue State.init ops).1 = x :: xs →
      (dequeue_rx_byte (runQueue State.init ops).1).1 = some x ∧
      queueContents (dequeue_rx_byte (runQueue State.init ops).1).2 = xs) := by
  obtain ⟨hw, hc, ho⟩ := runQueue_refines ops State.init queueWf_init
  rw [queueContents_init] at hc ho
  generalize (runQueue State.init ops).1 = st at hw hc ⊢
  have hlt := queueCount_lt st
  simp only [RX_QUEUE_SIZE] at hlt
  refine ⟨hc, ho, ?_, ?_, queueContents_eq_nil_iff st hw, ?_, ?_⟩
  · rw [queueContents_length]; omega
  · intro b
    rw [enqueue_refines st b hw]
    rfl
  · intro hnil
    exact dequeue_empty st ((queueContents_eq_nil_iff st hw).1 hnil)
  · intro x xs hx
    obtain ⟨h1, h2⟩ := dequeue_refines st hw
    rw [hx] at h1 h2
    exact ⟨h1, h2⟩

theorem C14_witness :
    queueContents (runQueue State.init [QueueOp.enqueue 5, QueueOp.enqueue 6]).1 = [5, 6] ∧
    (dequeue_rx_byte (runQueue State.init [QueueOp.enqueue 5, QueueOp.enqueue 6]).1).1 =
      some 5 ∧
    queueContents
      (dequeue_rx_byte (runQueue State.init [QueueOp.enqueue 5, QueueOp.enqueue 6]).1).2 =
      [6] :=
  ⟨(C14_ring_refines_fifo [QueueOp.enqueue 5, QueueOp.enqueue 6]).1.trans (by decide),
    ((C14_ring_refines_fifo [QueueOp.enqueue 5, QueueOp.enqueue 6]).2.2.2.2.2.2 5 [6]
      ((C14_ring_refines_fifo [QueueOp.enqueue 5, QueueOp.enqueue 6]).1.trans (by decide))).1,
    ((C14_ring_refines_fifo [QueueOp.enqueue 5, QueueOp.enqueue 6]).2.2.2.2.2.2 5 [6]
      ((C14_ring_refines_fifo [QueueOp.enqueue 5, QueueOp.enqueue 6]).1.trans (by decide))).2⟩

/-- C16: `enqueue_rx_byte` leaves `rx_q_tail` unchanged and changes at most the slot
`rx_queue[old head]` and `rx_q_head`; `dequeue_rx_byte` leaves `rx_q_head` and the whole
of `rx_queue` unchanged and changes at most `rx_q_tail`; neither changes a parser
variable (nor do they log an event). -/
theorem C16_queue_frame_conditions (st : State) (b : Nat) :
    ((enqueue_rx_byte st b).rx_q_tail = st.rx_q_tail ∧
      (enqueue_rx_byte st b).rx_queue.length = st.rx_queue.length ∧
      (∀ i, i ≠ st.rx_q_head → (enqueue_rx_byte st b).rx_queue[i]? = st.rx_queue[i]?) ∧
      (enqueue_rx_byte st b).parser_state = st.parser_state ∧
      (enqueue_rx_byte st b).payload_len = st.payload_len ∧
      (enqueue_rx_byte st b).payload_idx = st.payload_idx ∧
      (enqueue_rx_byte st b).payload_buf = st.payload_buf ∧
      (enqueue_rx_byte st b).checksum_accum = st.checksum_accum ∧
      (enqueue_rx_byte st b).log = st.log) ∧
    ((dequeue_rx_byte st).2.rx_q_head = st.rx_q_head ∧
      (dequeue_rx_byte st).2.rx_queue = st.rx_queue ∧
      (dequeue_rx_byte st).2.parser_state = st.parser_state ∧
      (dequeue_rx_byte st).2.payload_len = st.payload_len ∧
      (dequeue_rx_byte st).2.payload_idx = st.payload_idx ∧
      (dequeue_rx_byte st).2.payload_buf = st.payload_buf ∧
      (dequeue_rx_byte st).2.checksum_accum = st.checksum_accum ∧
      (dequeue_rx_byte st).2.log = st.log) := by
  constructor
  · unfold enqueue_rx_byte
    dsimp only
    split
    · refine ⟨rfl, List.length_set _ _ _, ?_, rfl, rfl, rfl, rfl, rfl, rfl⟩
      intro i hi
      exact List.getElem?_set_ne (Ne.symm hi)
    · exact ⟨rfl, rfl, fun _ _ => rfl, rfl, rfl, rfl, rfl, rfl, rfl⟩
  · unfold dequeue_rx_byte
    split
    · exact ⟨rfl, rfl, rfl, rfl, rfl, rfl, rfl, rfl⟩
    · exact ⟨rfl, rfl, rfl, rfl, rfl, rfl, rfl, rfl⟩

theorem C16_witness :
    (3 : Nat) ≠ State.init.rx_q_head ∧
    (enqueue_rx_byte State.init 9).rx_queue[3]? = State.init.rx_queue[3]? ∧
    (enqueue_rx_byte State.init 9).rx_q_tail = State.init.rx_q_tail ∧
    (dequeue_rx_byte State.init).2.rx_queue = State.init.rx_queue :=
  ⟨by decide, (C16_queue_frame_conditions State.init 9).1.2.2.1 3 (by decide),
    (C16_queue_frame_conditions State.init 9).1.1,
    (C16_queue_frame_conditions State.init 9).2.2.1⟩

/-! ## Dispatcher: the buffer keeps its size -/

/-- The dispatcher rewrites the buffer in place: on a terminated payload without 0 bytes
the buffer has the same number of bytes after the call. -/
theorem handle_payload_length_string (payload rest : List Nat) (len : Nat)
    (hz : ∀ c ∈ payload, c ≠ 0) :
    (handle_payload (payload ++ 0 :: rest) len).1.length = (payload ++ 0 :: rest).length := by
  obtain ⟨junk, hm, hjl⟩ := trim_inplace_payload payload rest hz
  have hzt := trimSpec_no_zero payload hz
  have hlen0 : (trimSpec payload ++ 0 :: (junk ++ rest)).length =
      (payload ++ 0 :: rest).length := by
    simp only [List.length_append, List.length_cons]
    omega
  generalize (payload ++ 0 :: rest).length = N at hlen0 ⊢
  generalize trimSpec payload = t at hm hzt hlen0
  generalize junk ++ rest = R0 at hm hlen0
  unfold handle_payload
  dsimp only
  rw [hm, strcmp_eq_payload _ _ _ hzt, strncmp_eq_payload _ _ _ _ hzt,
    strncmp_eq_payload _ _ _ _ hzt]
  by_cases hp : (t == lit "ping") = true
  · rw [if_pos hp]
    exact hlen0
  · rw [if_neg hp]
    by_cases hl : (t.take 4 == (lit "led:").take 4) = true
    · rw [if_pos hl]
      have hl4 : (t.take 4).length = 0 + 4 := by
        rw [beq_iff_eq] at hl
        rw [hl]; rfl
      have hzd : ∀ c ∈ t.drop 4, c ≠ 0 := fun c hc => hzt c (List.mem_of_mem_drop hc)
      obtain ⟨j2, hm2, hl2⟩ := trim_inplace_string (t.take 4) (t.drop 4) R0 hzd
      rw [List.take_append_drop, hl4] at hm2
      have htd : (t.take 4).length + (t.drop 4).length = t.length := by
        rw [← List.length_append, List.take_append_drop]
      have hlen2 : (t.take 4 ++ trimSpec (t.drop 4) ++ 0 :: (j2 ++ R0)).length = N := by
        simp only [List.length_append, List.length_cons] at hlen0 ⊢
        omega
      rw [hm2]
      repeat' split
      all_goals exact hlen2
    · rw [if_neg hl]
      by_cases hmo : (t.take 6 == (lit "motor:").take 6) = true
      · rw [if_pos hmo]
        have hl6 : (t.take 6).length = 0 + 6 := by
          rw [beq_iff_eq] at hmo
          rw [hmo]; rfl
        have hzd : ∀ c ∈ t.drop 6, c ≠ 0 := fun c hc => hzt c (List.mem_of_mem_drop hc)
        have hzp := trimSpec_no_zero (t.drop 6) hzd
        obtain ⟨j2, hm2, hl2⟩ := trim_inplace_string (t.take 6) (t.drop 6) R0 hzd
        rw [List.take_append_drop, hl6] at hm2
        have htd : (t.take 6).length + (t.drop 6).length = t.length := by
          rw [← List.length_append, List.take_append_drop]
        have hlen2 : (t.take 6 ++ trimSpec (t.drop 6) ++ 0 :: (j2 ++ R0)).length = N := by
          simp only [List.length_append, List.length_cons] at hlen0 ⊢
          omega
        generalize trimSpec (t.drop 6) = p at hm2 hzp hlen2
        generalize j2 ++ R0 = R1 at hm2 hlen2
        have hchr := strchr_string (t.take 6) p R1 58 hzp
        rw [hl6] at hchr
        rw [hm2, hchr]
        by_cases hcol : 58 ∈ p
        · rw [if_pos hcol]
          dsimp only
          have ha : List.takeWhile (fun x => x != 58) p = beforeColon p := rfl
          rw [ha]
          have hp2 := split_at_colon p hcol
          have hza : ∀ c ∈ beforeColon p, c ≠ 0 :=
            fun c hc => hzp c (beforeColon_subset p c hc)
          have hzb : ∀ c ∈ afterColon p, c ≠ 0 :=
            fun c hc => hzp c (afterColon_subset p c hc)
          generalize beforeColon p = a at hp2 hza ⊢
          generalize afterColon p = b at hp2 hzb ⊢
          have hset : (t.take 6 ++ p ++ 0 :: R1).set (0 + 6 + a.length) 0 =
              t.take 6 ++ a ++ 0 :: (b ++ 0 :: R1) := by
            have e : t.take 6 ++ p ++ 0 :: R1 = (t.take 6 ++ a) ++ 58 :: (b ++ 0 :: R1) := by
              rw [hp2]; simp
            have el : 0 + 6 + a.length = (t.take 6 ++ a).length := by
              rw [List.length_append, hl6]
            rw [e, el, List.set_append_right _ _ (Nat.le_refl _), Nat.sub_self,
              List.set_cons_zero]
          obtain ⟨j3, hm3, hl3⟩ := trim_inplace_string (t.take 6) a (b ++ 0 :: R1) hza
          rw [hl6] at hm3
          have hpre : t.take 6 ++ trimSpec a ++ 0 :: (j3 ++ (b ++ 0 :: R1)) =
              (t.take 6 ++ trimSpec a ++ 0 :: j3) ++ b ++ 0 :: R1 := by simp
          have hlpre : (t.take 6 ++ trimSpec a ++ 0 :: j3).length = 0 + 6 + a.length + 1 := by
            simp only [List.length_append, List.length_cons, hl6]
            omega
          obtain ⟨j4, hm4, hl4⟩ :=
            trim_inplace_string (t.take 6 ++ trimSpec a ++ 0 :: j3) b R1 hzb
          rw [hlpre] at hm4
          have hlen4 : ((t.take 6 ++ trimSpec a ++ 0 :: j3) ++ trimSpec b ++
              0 :: (j4 ++ R1)).length = N := by
            rw [← hlen2, hp2]
            simp only [List.length_append, List.length_cons]
            omega
          rw [hset, hm3, hpre, hm4]
          repeat' split
          all_goals exact hlen4
        · rw [if_neg hcol]
          exact hlen2
      · rw [if_neg hmo]
        exact hlen0

/-- The same for any buffer that holds a 0 byte: the text before the first 0 is the
payload the dispatcher sees. -/
theorem handle_payload_length (data : List Nat) (len : Nat) (h0 : 0 ∈ data) :
    (handle_payload data len).1.length = data.length := by
  have hsplit : data = data.takeWhile (fun c => c != 0) ++
      0 :: (data.dropWhile (fun c => c != 0)).tail := by
    have h1 := List.takeWhile_append_dropWhile (fun c => c != 0) data
    have h2 : data.dropWhile (fun c => c != 0) =
        0 :: (data.dropWhile (fun c => c != 0)).tail := by
      cases hd : data.dropWhile (fun c => c != 0) with
      | nil =>
        rw [List.dropWhile_eq_nil_iff] at hd
        have := hd 0 h0
        simp at this
      | cons x xs =>
        have hx := List.head_dropWhile_not (fun c => c != 0) data (by rw [hd]; simp)
        simp only [hd, List.head_cons] at hx
        have hx0 : x = 0 := by simpa using hx
        rw [hx0, List.tail_cons]
    rw [← h2, h1]
  have hz : ∀ c ∈ data.takeWhile (fun c => c != 0), c ≠ 0 := by
    intro c hc
    have := List.mem_takeWhile_imp hc
    simpa using this
  have h := handle_payload_length_string (data.takeWhile (fun c => c != 0))
    (data.dropWhile (fun c => c != 0)).tail len hz
  rw [← hsplit] at h
  exact h

/-! ## Parser invariant -/

theorem parserInv_init : ParserInv State.init :=
  ⟨List.length_replicate _ _, Nat.zero_le _, fun h => absurd h (by decide),
    fun h => absurd h (by decide)⟩

/-- In the states 0 and 1 the invariant only asks for the size of the buffer. -/
theorem parserInv_of_le_one (st : State) (hbuf : st.payload_buf.length = MAX_PAYLOAD + 1)
    (h : st.parser_state ≤ 1) : ParserInv st :=
  ⟨hbuf, by omega, fun e => by omega, fun e => by omega⟩

/-- Every `process_byte` call preserves the parser invariant, whatever the byte. -/
theorem parserInv_process_byte (st : State) (b : Nat) (hinv : ParserInv st) :
    ParserInv (process_byte st b) := by
  obtain ⟨hbuf, hst, h2, h3⟩ := hinv
  have hcases : st.parser_state = 0 ∨ st.parser_state = 1 ∨ st.parser_state = 2 ∨
      st.parser_state = 3 := by omega
  rcases hcases with h | h | h | h
  · rw [process_byte_idle st b h]
    split
    · exact parserInv_of_le_one _ hbuf (Nat.le_refl 1)
    · exact ⟨hbuf, hst, h2, h3⟩
  · rw [process_byte_length st b h]
    split
    · rename_i hb
      refine ⟨hbuf, ?_, fun _ => ⟨hb.1, hb.2, hb.1, ?_⟩, fun e => ?_⟩
      · show (2 : Nat) ≤ 3
        decide
      · show (0 : Nat) = ((st.payload_buf.take 0).sum) % 256
        simp
      · exact absurd (show (2 : Nat) = 3 from e) (by decide)
    · exact parserInv_of_le_one _ hbuf (Nat.zero_le 1)
  · obtain ⟨hpos, hlt, hidx, hacc⟩ := h2 h
    have hlt2 : st.payload_len < 128 := hlt
    have hmod : (st.payload_idx + 1) % 256 = st.payload_idx + 1 :=
      Nat.mod_eq_of_lt (by omega)
    have hidxb : st.payload_idx < st.payload_buf.length := by
      rw [hbuf]; simp only [MAX_PAYLOAD]; omega
    have hsum : (st.checksum_accum + b) % 256 =
        ((st.payload_buf.set st.payload_idx b).take (st.payload_idx + 1)).sum % 256 := by
      rw [set_take_succ _ _ _ hidxb, List.sum_append, List.sum_singleton, hacc,
        Nat.mod_add_mod]
    have hbuf2 : (st.payload_buf.set st.payload_idx b).length = MAX_PAYLOAD + 1 := by
      rw [List.length_set]; exact hbuf
    rw [process_byte_payload st b h, hmod]
    split
    · rename_i hge
      have he : st.payload_idx + 1 = st.payload_len := by omega
      refine ⟨hbuf2, ?_, fun e => ?_, fun _ => ⟨hpos, hlt, he, ?_⟩⟩
      · show (3 : Nat) ≤ 3
        decide
      · exact absurd (show (3 : Nat) = 2 from e) (by decide)
      · show (st.checksum_accum + b) % 256 =
          ((st.payload_buf.set st.payload_idx b).take st.payload_len).sum % 256
        rw [← he]
        exact hsum
    · rename_i hge
      have hlt3 : st.payload_idx + 1 < st.payload_len := by omega
      refine ⟨hbuf2, ?_, fun _ => ⟨hpos, hlt, hlt3, hsum⟩, fun e => ?_⟩
      · show st.parser_state ≤ 3
        exact hst
      · have e2 : st.parser_state = 3 := e
        rw [h] at e2
        exact absurd e2 (by decide)
  · obtain ⟨hpos, hlt, hidx, hacc⟩ := h3 h
    have hlt2 : st.payload_len < 128 := hlt
    rw [process_byte_checksum st b h]
    split
    · have hlenb : st.payload_len < st.payload_buf.length := by
        rw [hbuf]; simp only [MAX_PAYLOAD]; omega
      have hmem : 0 ∈ st.payload_buf.set st.payload_len 0 := List.mem_set _ _ hlenb 0
      refine parserInv_of_le_one _ ?_ (Nat.zero_le 1)
      show (handle_payload (st.payload_buf.set st.payload_len 0) st.payload_len).1.length =
        MAX_PAYLOAD + 1
      rw [handle_payload_length _ _ hmem, List.length_set]
      exact hbuf
    · exact parserInv_of_le_one _ hbuf (Nat.zero_le 1)

/-- The invariant holds in every state reachable by feeding bytes from a state where it
holds. -/
theorem parserInv_feed (bs : List Nat) : ∀ (st : State), ParserInv st →
    ParserInv (feed st bs) := by
  induction bs with
  | nil => intro st h; exact h
  | cons b bs ih => intro st h; exact ih _ (parserInv_process_byte st b h)

/-- C17: in every state reached from the initial state by any sequence of `process_byte`
calls, `parser_state` is 0, 1, 2 or 3; in state 2, `0 < payload_len < 128`,
`payload_idx < payload_len` and `checksum_accum` is the sum modulo 256 of
`payload_buf[0..payload_idx)`; in state 3, `payload_idx == payload_len` and
`checksum_accum` is the sum modulo 256 of the `payload_len` stored bytes.  Hence the
next payload write uses an index of at most 126 and the terminator write an index of at
most 127, both inside the 129-byte buffer, and incrementing `payload_idx` does not wrap
around 8 bits. -/
theorem C17_parser_invariant (bs : List Nat) :
    ((feed State.init bs).parser_state = 0 ∨ (feed State.init bs).parser_state = 1 ∨
      (feed State.init bs).parser_state = 2 ∨ (feed State.init bs).parser_state = 3) ∧
    (feed State.init bs).payload_buf.length = 129 ∧
    ((feed State.init bs).parser_state = 2 →
      0 < (feed State.init bs).payload_len ∧ (feed State.init bs).payload_len < 128 ∧
      (feed State.init bs).payload_idx < (feed State.init bs).payload_len ∧
      (feed State.init bs).checksum_accum =
        ((feed State.init bs).payload_buf.take (feed State.init bs).payload_idx).sum % 256 ∧
      (feed State.init bs).payload_idx ≤ 126 ∧
      (feed State.init bs).payload_idx < (feed State.init bs).payload_buf.length ∧
      ((feed State.init bs).payload_idx + 1) % 256 = (feed State.init bs).payload_idx + 1) ∧
    ((feed State.init bs).parser_state = 3 →
      0 < (feed State.init bs).payload_len ∧ (feed State.init bs).payload_len < 128 ∧
      (feed State.init bs).payload_idx = (feed State.init bs).payload_len ∧
      (feed State.init bs).checksum_accum =
        ((feed State.init bs).payload_buf.take (feed State.init bs).payload_len).sum % 256 ∧
      (feed State.init bs).payload_len ≤ 127 ∧
      (feed State.init bs).payload_len < (feed State.init bs).payload_buf.length) := by
  obtain ⟨hbuf, hst, h2, h3⟩ := parserInv_feed bs State.init parserInv_init
  generalize feed State.init bs = st at hbuf hst h2 h3 ⊢
  simp only [MAX_PAYLOAD] at hbuf h2 h3
  refine ⟨by omega, hbuf, ?_, ?_⟩
  · intro h
    obtain ⟨a, b, c, d⟩ := h2 h
    exact ⟨a, b, c, d, by omega, by omega, Nat.mod_eq_of_lt (by omega)⟩
  · intro h
    obtain ⟨a, b, c, d⟩ := h3 h
    exact ⟨a, b, c, d, by omega, by omega⟩

theorem C17_witness :
    (feed State.init [0xAA, 3, 7]).parser_state = 2 ∧
    (0 < (feed State.init [0xAA, 3, 7]).payload_len ∧
      (feed State.init [0xAA, 3, 7]).payload_len < 128 ∧
      (feed State.init [0xAA, 3, 7]).payload_idx < (feed State.init [0xAA, 3, 7]).payload_len ∧
      (feed State.init [0xAA, 3, 7]).checksum_accum =
        ((feed State.init [0xAA, 3, 7]).payload_buf.take
          (feed State.init [0xAA, 3, 7]).payload_idx).sum % 256 ∧
      (feed State.init [0xAA, 3, 7]).payload_idx ≤ 126 ∧
      (feed State.init [0xAA, 3, 7]).payload_idx <
        (feed State.init [0xAA, 3, 7]).payload_buf.length ∧
      ((feed State.init [0xAA, 3, 7]).payload_idx + 1) % 256 =
        (feed State.init [0xAA, 3, 7]).payload_idx + 1) :=
  ⟨by decide, (C17_parser_invariant [0xAA, 3, 7]).2.2.1 (by decide)⟩

/-! ## Parser: bounded return to idle -/

theorem process_byte_checksum_state (st : State) (b : Nat) (h : st.parser_state = 3) :
    (process_byte st b).parser_state = 0 := by
  rw [process_byte_checksum st b h]
  split <;> rfl

/-- In the payload state, the bytes still missing lead to the checksum state. -/
theorem feed_payload_rest (n : Nat) : ∀ (st : State) (bs : List Nat),
    st.parser_state = 2 → st.payload_idx + (n + 1) = st.payload_len →
    st.payload_len < 256 → bs.length = n + 1 → (feed st bs).parser_state = 3 := by
  induction n with
  | zero =>
    intro st bs h2 hidx hlen hbs
    match bs, hbs with
    | [b], _ =>
      have hmod : (st.payload_idx + 1) % 256 = st.payload_idx + 1 :=
        Nat.mod_eq_of_lt (by omega)
      rw [feed_cons, feed_nil, process_byte_payload st b h2, hmod, if_pos (by omega)]
  | succ n ih =>
    intro st bs h2 hidx hlen hbs
    match bs, hbs with
    | b :: bs, hbs =>
      have hmod : (st.payload_idx + 1) % 256 = st.payload_idx + 1 :=
        Nat.mod_eq_of_lt (by omega)
      rw [feed_cons, process_byte_payload st b h2, hmod, if_neg (by omega)]
      apply ih
      · exact h2
      · show st.payload_idx + 1 + (n + 1) = st.payload_len
        omega
      · exact hlen
      · simpa using hbs

/-- From the payload state: after the missing payload bytes and one checksum byte the
parser is idle. -/
theorem resync_from_payload (st : State) (bs : List Nat) (h2 : st.parser_state = 2)
    (hidx : st.payload_idx < st.payload_len) (hlen : st.payload_len < 256)
    (hbs : st.payload_len - st.payload_idx + 1 ≤ bs.length) :
    (feed st (bs.take (st.payload_len - st.payload_idx + 1))).parser_state = 0 := by
  obtain ⟨n, hn⟩ : ∃ n, st.payload_len - st.payload_idx = n + 1 :=
    ⟨st.payload_len - st.payload_idx - 1, by omega⟩
  rw [hn, List.take_add, feed_append]
  have h3 : (feed st (bs.take (n + 1))).parser_state = 3 :=
    feed_payload_rest n st (bs.take (n + 1)) h2 (by omega) hlen
      (by rw [List.length_take]; omega)
  have hone : ∃ c, (bs.drop (n + 1)).take 1 = [c] := by
    cases hd : bs.drop (n + 1) with
    | nil =>
      have : (bs.drop (n + 1)).length = 0 := by rw [hd]; rfl
      rw [List.length_drop] at this
      omega
    | cons c cs => exact ⟨c, rfl⟩
  obtain ⟨c, hc⟩ := hone
  rw [hc, feed_cons, feed_nil]
  exact process_byte_checksum_state _ c h3

/-- From any state that satisfies the parser invariant, the parser is idle after at most
129 further bytes. -/
theorem resync_bound (st : State) (bs : List Nat) (hinv : ParserInv st)
    (hbs : 129 ≤ bs.length) :
    ∃ k, k ≤ 129 ∧ (feed st (bs.take k)).parser_state = 0 := by
  obtain ⟨hbuf, hst, h2, h3⟩ := hinv
  have hcases : st.parser_state = 0 ∨ st.parser_state = 1 ∨ st.parser_state = 2 ∨
      st.parser_state = 3 := by omega
  rcases hcases with h | h | h | h
  · exact ⟨0, by omega, h⟩
  · match bs, hbs with
    | b :: bs, hbs =>
      simp only [List.length_cons] at hbs
      by_cases hb : 0 < b ∧ b < MAX_PAYLOAD
      · have hb2 : b < 128 := hb.2
        refine ⟨b + 2, by omega, ?_⟩
        rw [List.take_succ_cons, feed_cons, process_byte_length st b h, if_pos hb]
        have key := resync_from_payload
          { st with payload_len := b, payload_idx := 0, checksum_accum := 0, parser_state := 2 }
          bs rfl hb.1 (by show b < 256; omega) (by show b - 0 + 1 ≤ bs.length; omega)
        exact key
      · refine ⟨1, by omega, ?_⟩
        rw [List.take_succ_cons, List.take_zero, feed_cons, feed_nil,
          process_byte_length st b h, if_neg hb]
  · obtain ⟨hpos, hlt, hidx, _⟩ := h2 h
    have hlt2 : st.payload_len < 128 := hlt
    exact ⟨st.payload_len - st.payload_idx + 1, by omega,
      resync_from_payload st bs h hidx (by omega) (by omega)⟩
  · match bs, hbs with
    | b :: bs, _ =>
      refine ⟨1, by omega, ?_⟩
      rw [List.take_succ_cons, List.take_zero, feed_cons, feed_nil]
      exact process_byte_checksum_state st b h

/-- C18: from every state reachable from the initial state, and for every sequence of
129 further bytes, the parser is idle after some beginning of at most 129 of them.  A
0xAA byte received in the payload state is stored as payload data (the frame length is
kept, the index advances, the checksum takes it in) and one received in the checksum
state is compared as the checksum; in neither case does the parser go to the length
state. -/
theorem C18_bounded_resync (pre bs : List Nat) (hlen : bs.length = 129) :
    (∃ k, k ≤ 129 ∧ (feed (feed State.init pre) (bs.take k)).parser_state = 0) ∧
    ((feed State.init pre).parser_state = 2 →
      (process_byte (feed State.init pre) 0xAA).parser_state ≠ 1 ∧
      (process_byte (feed State.init pre) 0xAA).parser_state ≠ 0 ∧
      (process_byte (feed State.init pre) 0xAA).payload_len =
        (feed State.init pre).payload_len ∧
      (process_byte (feed State.init pre) 0xAA).payload_idx =
        (feed State.init pre).payload_idx + 1 ∧
      (process_byte (feed State.init pre) 0xAA).payload_buf =
        (feed State.init pre).payload_buf.set (feed State.init pre).payload_idx 0xAA ∧
      (process_byte (feed State.init pre) 0xAA).checksum_accum =
        ((feed State.init pre).checksum_accum + 0xAA) % 256) ∧
    ((feed State.init pre).parser_state = 3 →
      (process_byte (feed State.init pre) 0xAA).parser_state = 0 ∧
      ((feed State.init pre).checksum_accum ≠ 0xAA →
        (process_byte (feed State.init pre) 0xAA).log = (feed State.init pre).log)) := by
  have hinv := parserInv_feed pre State.init parserInv_init
  generalize feed State.init pre = st at hinv ⊢
  refine ⟨resync_bound st bs hinv (by omega), ?_, ?_⟩
  · intro h
    obtain ⟨_, _, h2, _⟩ := hinv
    obtain ⟨hpos, hlt, hidx, _⟩ := h2 h
    have hlt2 : st.payload_len < 128 := hlt
    have hmod : (st.payload_idx + 1) % 256 = st.payload_idx + 1 :=
      Nat.mod_eq_of_lt (by omega)
    rw [process_byte_payload st _ h, hmod]
    split
    · exact ⟨show (3 : Nat) ≠ 1 by decide, show (3 : Nat) ≠ 0 by decide, rfl, rfl, rfl, rfl⟩
    · refine ⟨?_, ?_, rfl, rfl, rfl, rfl⟩
      · show st.parser_state ≠ 1
        rw [h]; decide
      · show st.parser_state ≠ 0
        rw [h]; decide
  · intro h
    refine ⟨process_byte_checksum_state st _ h, ?_⟩
    intro hne
    rw [process_byte_checksum st _ h, if_neg (fun e => hne e.symm)]

theorem C18_witness :
    (List.replicate 129 0xAA).length = 129 ∧
    (feed State.init [0xAA, 3, 7]).parser_state = 2 ∧
    (∃ k, k ≤ 129 ∧
      (feed (feed State.init [0xAA, 3, 7]) ((List.replicate 129 0xAA).take k)).parser_state
        = 0) ∧
    (process_byte (feed State.init [0xAA, 3, 7]) 0xAA).parser_state ≠ 1 :=
  ⟨List.length_replicate _ _, by decide,
    (C18_bounded_resync [0xAA, 3, 7] (List.replicate 129 0xAA) (List.length_replicate _ _)).1,
    ((C18_bounded_resync [0xAA, 3, 7] (List.replicate 129 0xAA)
      (List.length_replicate _ _)).2.1 (by decide)).1⟩

/-! ## Claims about embedded terminators and the digital output -/

/-- C19: a 0 byte inside a validated payload cuts the command: the events of the
dispatcher call are those it produces for the bytes before the first 0 byte alone
(whatever follows them in the buffer and whatever length is passed).  The payload
'p','i','n','g',0,'x','y' is answered "ACK:pong", also when it arrives as a frame with
its checksum 0x9F, and a payload that starts with a 0 byte is answered "UNKNOWN". -/
theorem C19_embedded_zero_truncates (a b rest rest2 : List Nat) (len len2 : Nat)
    (hz : ∀ c ∈ a, c ≠ 0) :
    (handle_payload ((a ++ 0 :: b) ++ 0 :: rest) len).2 =
      (handle_payload (a ++ 0 :: rest2) len2).2 ∧
    responses (handle_payload ((lit "ping" ++ 0 :: [120, 121]) ++ 0 :: rest) 7).2 =
      [lit "ACK:pong"] ∧
    responses (handle_payload ((0 :: b) ++ 0 :: rest) len).2 = [lit "UNKNOWN"] ∧
    ([112, 105, 110, 103, 0, 120, 121] : List Nat).sum % 256 = 0x9F ∧
    responses (feed State.init [0xAA, 7, 112, 105, 110, 103, 0, 120, 121, 0x9F]).log =
      [lit "ACK:pong"] := by
  have e1 : (a ++ 0 :: b) ++ 0 :: rest = a ++ 0 :: (b ++ 0 :: rest) := by simp
  have e2 : (lit "ping" ++ 0 :: [120, 121]) ++ 0 :: rest =
      lit "ping" ++ 0 :: ([120, 121] ++ 0 :: rest) := by simp
  have e3 : (0 :: b) ++ 0 :: rest = [] ++ 0 :: (b ++ 0 :: rest) := by simp
  refine ⟨?_, ?_, ?_, by decide, ?_⟩
  · rw [e1, handle_payload_refines a _ len hz, handle_payload_refines a rest2 len2 hz]
  · rw [e2, handle_payload_ping (lit "ping") _ 7 (by decide) (by decide), responses_respond]
  · rw [e3, handle_payload_unknown [] _ len (by decide) (by decide) (by decide) (by decide),
      responses_respond]
  · have hframe : ([0xAA, 7, 112, 105, 110, 103, 0, 120, 121, 0x9F] : List Nat) =
        FRAME_START :: [112, 105, 110, 103, 0, 120, 121].length ::
          ([112, 105, 110, 103, 0, 120, 121] ++ [[112, 105, 110, 103, 0, 120, 121].sum % 256]) := by
      decide
    have hb : [112, 105, 110, 103, 0, 120, 121].length < State.init.payload_buf.length := by
      rw [show State.init.payload_buf.length = MAX_PAYLOAD + 1 from List.length_replicate _ _]
      decide
    rw [hframe, feed_frame_ok State.init _ rfl (by decide) (by decide) (Nat.le_of_lt hb),
      frame_buffer_eq _ _ hb]
    have e4 : [112, 105, 110, 103, 0, 120, 121] ++
        0 :: State.init.payload_buf.drop ([112, 105, 110, 103, 0, 120, 121].length + 1) =
        lit "ping" ++ 0 :: ([120, 121] ++
          0 :: State.init.payload_buf.drop ([112, 105, 110, 103, 0, 120, 121].length + 1)) := by
      rfl
    rw [e4, handle_payload_ping (lit "ping") _ _ (by decide) (by decide)]
    show responses ([] ++ Event.handle_payload_call _ _ :: respond (lit "ACK:pong")) = _
    rw [responses_append]
    show responses (respond (lit "ACK:pong")) = _
    exact responses_respond _

theorem C19_witness :
    (∀ c ∈ lit "led:on", c ≠ 0) ∧
    (handle_payload ((lit "led:on" ++ 0 :: [33, 33]) ++ 0 :: [7]) 9).2 =
      (handle_payload (lit "led:on" ++ 0 :: []) 6).2 :=
  ⟨by decide,
    (C19_embedded_zero_truncates (lit "led:on") [33, 33] [7] [] 9 6 (by decide)).1⟩

/-- The events of one dispatcher call, split by whether the pin is written: a single
response other than "LED:OK" and no pin write, or one pin write followed by the
response "LED:OK". -/
theorem handle_payload_events_gpio (data : List Nat) (len : Nat) :
    (∃ s, (s = lit "ACK:pong" ∨ s = lit "LED:ERR" ∨ s = lit "MOTOR:OK" ∨
        s = lit "MOTOR:ERR:FORMAT" ∨ s = lit "MOTOR:ERR:BAD_ARGS" ∨ s = lit "UNKNOWN") ∧
      (handle_payload data len).2 = respond s) ∨
    (∃ v, (v = GPIO_PIN_SET ∨ v = GPIO_PIN_RESET) ∧
      (handle_payload data len).2 = Event.gpio_write v :: respond (lit "LED:OK")) := by
  unfold handle_payload
  dsimp only
  repeat' split
  all_goals first
    | exact Or.inl ⟨_, Or.inl rfl, rfl⟩
    | exact Or.inr ⟨_, Or.inl rfl, rfl⟩
    | exact Or.inr ⟨_, Or.inr rfl, rfl⟩
    | exact Or.inl ⟨_, Or.inr (Or.inl rfl), rfl⟩
    | exact Or.inl ⟨_, Or.inr (Or.inr (Or.inl rfl)), rfl⟩
    | exact Or.inl ⟨_, Or.inr (Or.inr (Or.inr (Or.inl rfl))), rfl⟩
    | exact Or.inl ⟨_, Or.inr (Or.inr (Or.inr (Or.inr (Or.inl rfl)))), rfl⟩
    | exact Or.inl ⟨_, Or.inr (Or.inr (Or.inr (Or.inr (Or.inr rfl)))), rfl⟩

/-- Pin writes and "LED:OK" responses of one dispatcher call come together: as many
pin writes as "LED:OK" responses, at most one of each. -/
theorem handle_payload_gpio_count (data : List Nat) (len : Nat) :
    (gpioWrites (handle_payload data len).2).length =
      (responses (handle_payload data len).2).count (lit "LED:OK") := by
  rcases handle_payload_events_gpio data len with ⟨s, hs, h⟩ | ⟨v, _, h⟩
  · rw [h, gpioWrites_respond, responses_respond]
    have hne : s ≠ lit "LED:OK" := by
      rcases hs with h | h | h | h | h | h <;> rw [h] <;> decide
    rw [List.count_singleton, beq_false_of_ne hne]
    rfl
  · rw [h]
    show (v :: gpioWrites (respond (lit "LED:OK"))).length =
      (responses (respond (lit "LED:OK"))).count (lit "LED:OK")
    rw [gpioWrites_respond, responses_respond, List.count_singleton, beq_self_eq_true]
    rfl

/-- What one `process_byte` call adds to the log: nothing, or, on a matching checksum
byte in state 3, the events of one dispatcher call. -/
theorem process_byte_log (st : State) (b : Nat) :
    (process_byte st b).log = st.log ∨
    (st.parser_state = 3 ∧ b = st.checksum_accum ∧
      (process_byte st b).log = st.log ++
        Event.handle_payload_call (st.payload_buf.set st.payload_len 0) st.payload_len ::
          (handle_payload (st.payload_buf.set st.payload_len 0) st.payload_len).2) := by
  by_cases h3 : st.parser_state = 3
  · rw [process_byte_checksum st b h3]
    by_cases hb : b = st.checksum_accum
    · rw [if_pos hb]
      exact Or.inr ⟨h3, hb, rfl⟩
    · rw [if_neg hb]
      exact Or.inl rfl
  · exact Or.inl (process_byte_log_of_ne st b h3)

/-- Over any byte sequence, the pin writes added to the log are as many as the "LED:OK"
responses added to it. -/
theorem feed_gpio_count (bs : List Nat) : ∀ (st : State),
    (gpioWrites st.log).length = (responses st.log).count (lit "LED:OK") →
    (gpioWrites (feed st bs).log).length =
      (responses (feed st bs).log).count (lit "LED:OK") := by
  induction bs with
  | nil => intro st h; exact h
  | cons b bs ih =>
    intro st h
    rw [feed_cons]
    apply ih
    rcases process_byte_log st b with hl | ⟨_, _, hl⟩
    · rw [hl]; exact h
    · rw [hl, gpioWrites_append, responses_append, List.length_append, List.count_append, h]
      congr 1
      exact handle_payload_gpio_count _ _

/-- C20: the digital output is written only by an accepted LED command.  One dispatcher
call either responds with something other than "LED:OK" and writes no pin, or responds
"LED:OK" and writes the pin exactly once; a `process_byte` call that is not a matching
checksum byte in state 3 (so every byte of a frame rejected for its length or its
checksum) adds no pin write; and over every byte sequence from the initial state the
number of pin writes equals the number of "LED:OK" responses. -/
theorem C20_gpio_only_on_led_ok (bs : List Nat) :
    (∀ (data : List Nat) (len : Nat),
      (gpioWrites (handle_payload data len).2 = [] ∧
        ∃ s, (s = lit "ACK:pong" ∨ s = lit "LED:ERR" ∨ s = lit "MOTOR:OK" ∨
            s = lit "MOTOR:ERR:FORMAT" ∨ s = lit "MOTOR:ERR:BAD_ARGS" ∨ s = lit "UNKNOWN") ∧
          responses (handle_payload data len).2 = [s]) ∨
      (responses (handle_payload data len).2 = [lit "LED:OK"] ∧
        ∃ v, (v = GPIO_PIN_SET ∨ v = GPIO_PIN_RESET) ∧
          gpioWrites (handle_payload data len).2 = [v])) ∧
    (∀ (st : State) (b : Nat), (st.parser_state ≠ 3 ∨ b ≠ st.checksum_accum) →
      gpioWrites (process_byte st b).log = gpioWrites st.log) ∧
    (∀ (st : State) (b : Nat), st.parser_state = 3 → b = st.checksum_accum →
      gpioWrites (process_byte st b).log = gpioWrites st.log ++
        gpioWrites (handle_payload (st.payload_buf.set st.payload_len 0) st.payload_len).2) ∧
    (gpioWrites (feed State.init bs).log).length =
      (responses (feed State.init bs).log).count (lit "LED:OK") := by
  refine ⟨?_, ?_, ?_, feed_gpio_count bs State.init rfl⟩
  · intro data len
    rcases handle_payload_events_gpio data len with ⟨s, hs, h⟩ | ⟨v, hv, h⟩
    · exact Or.inl ⟨by rw [h, gpioWrites_respond], s, hs, by rw [h, responses_respond]⟩
    · refine Or.inr ⟨?_, v, hv, ?_⟩
      · rw [h]
        show responses (respond (lit "LED:OK")) = _
        exact responses_respond _
      · rw [h]
        show v :: gpioWrites (respond (lit "LED:OK")) = _
        rw [gpioWrites_respond]
  · intro st b hcond
    rcases process_byte_log st b with hl | ⟨h3, hb, _⟩
    · rw [hl]
    · rcases hcond with hc | hc
      · exact absurd h3 hc
      · exact absurd hb hc
  · intro st b h3 hb
    rw [process_byte_checksum st b h3, if_pos hb]
    show gpioWrites (st.log ++ Event.handle_payload_call _ _ :: _) = _
    rw [gpioWrites_append]
    rfl

theorem C20_witness :
    (State.init.parser_state ≠ 3 ∨ (5 : Nat) ≠ State.init.checksum_accum) ∧
    gpioWrites (process_byte State.init 5).log = gpioWrites State.init.log ∧
    (gpioWrites (feed State.init [0xAA, 6, 108, 101, 100, 58, 111, 110, 0x7D]).log).length =
      (responses (feed State.init [0xAA, 6, 108, 101, 100, 58, 111, 110, 0x7D]).log).count
        (lit "LED:OK") :=
  ⟨Or.inl (by decide),
    (C20_gpio_only_on_led_ok []).2.1 State.init 5 (Or.inl (by decide)),
    (C20_gpio_only_on_led_ok [0xAA, 6, 108, 101, 100, 58, 111, 110, 0x7D]).2.2.2⟩

/-! ## RX queue: a dequeue preempted by an enqueue -/

/-- The six memory accesses, run without preemption, are `dequeue_rx_byte`. -/
theorem deqSteps_uninterrupted (st : State) :
    (deqSteps 6 DeqRun.start st).1.ret = some (dequeue_rx_byte st).1 ∧
    (deqSteps 6 DeqRun.start st).2 = (dequeue_rx_byte st).2 := by
  by_cases he : st.rx_q_tail = st.rx_q_head
  · simp [deqSteps, deqStep, DeqRun.start, dequeue_rx_byte, he]
  · simp [deqSteps, deqStep, DeqRun.start, dequeue_rx_byte, he]

theorem enqueue_tail (st : State) (b : Nat) :
    (enqueue_rx_byte st b).rx_q_tail = st.rx_q_tail := by
  unfold enqueue_rx_byte
  dsimp only
  split <;> rfl

/-- After an enqueue into a queue that is not empty, the queue is still not empty. -/
theorem enqueue_head_ne (st : State) (b : Nat) (hne : st.rx_q_tail ≠ st.rx_q_head) :
    st.rx_q_tail ≠ (enqueue_rx_byte st b).rx_q_head := by
  unfold enqueue_rx_byte
  dsimp only
  split
  · rename_i h
    exact fun e => h e.symm
  · exact hne

/-- An enqueue into a queue that is not empty does not touch the oldest slot. -/
theorem enqueue_slot (st : State) (b : Nat) (hne : st.rx_q_tail ≠ st.rx_q_head) :
    (enqueue_rx_byte st b).rx_queue.getD st.rx_q_tail 0 = st.rx_queue.getD st.rx_q_tail 0 := by
  unfold enqueue_rx_byte
  dsimp only
  split
  · simp only [List.getD_eq_getElem?_getD]
    rw [List.getElem?_set_ne (Ne.symm hne)]
  · rfl

/-- The first accesses of a dequeue only read: the state is unchanged and the record
holds what was read. -/
theorem deqSteps_prefix (st : State) :
    deqSteps 0 DeqRun.start st = (DeqRun.start, st) ∧
    deqSteps 1 DeqRun.start st = (DeqRun.mk 1 st.rx_q_tail 0 0 0 none, st) ∧
    (st.rx_q_tail ≠ st.rx_q_head →
      deqSteps 2 DeqRun.start st = (DeqRun.mk 2 st.rx_q_tail 0 0 0 none, st) ∧
      deqSteps 3 DeqRun.start st = (DeqRun.mk 3 st.rx_q_tail st.rx_q_tail 0 0 none, st) ∧
      deqSteps 4 DeqRun.start st =
        (DeqRun.mk 4 st.rx_q_tail st.rx_q_tail (st.rx_queue.getD st.rx_q_tail 0) 0 none, st) ∧
      deqSteps 5 DeqRun.start st =
        (DeqRun.mk 5 st.rx_q_tail st.rx_q_tail (st.rx_queue.getD st.rx_q_tail 0)
          st.rx_q_tail none, st)) := by
  refine ⟨rfl, rfl, fun hne => ⟨?_, ?_, ?_, ?_⟩⟩ <;>
    simp [deqSteps, deqStep, DeqRun.start, hne]

/-- Once the emptiness test has found the queue empty the call has returned false: no
further access is made. -/
theorem deqSteps_empty (k : Nat) (st : State) (hk1 : 2 ≤ k) (hk2 : k ≤ 6)
    (he : st.rx_q_tail = st.rx_q_head) :
    deqSteps k DeqRun.start st = (DeqRun.mk 6 st.rx_q_tail 0 0 0 (some none), st) := by
  interval_cases k <;> simp [deqSteps, deqStep, DeqRun.start, he]

/-- Preemption before the read of `rx_q_head`: the dequeue sees the queue after the
enqueue. -/
theorem dequeue_preempted_early (k : Nat) (st : State) (b : Nat) (hk : k ≤ 1) :
    dequeue_preempted k st b =
      (some (dequeue_rx_byte (enqueue_rx_byte st b)).1,
        (dequeue_rx_byte (enqueue_rx_byte st b)).2) := by
  have het := enqueue_tail st b
  obtain ⟨h0, h1, _⟩ := deqSteps_prefix st
  obtain ⟨hr, hs⟩ := deqSteps_uninterrupted (enqueue_rx_byte st b)
  rw [← hr, ← hs]
  unfold dequeue_preempted
  interval_cases k
  · rw [h0]
  · rw [h1]
    dsimp only
    generalize enqueue_rx_byte st b = e at het ⊢
    have e1 : deqSteps 6 DeqRun.start e =
        deqSteps 5 (DeqRun.mk 1 e.rx_q_tail 0 0 0 none) e := rfl
    rw [e1, het]

/-- Preemption after the emptiness test found the queue empty: the dequeue has returned
false, the enqueue comes after it. -/
theorem dequeue_preempted_empty (k : Nat) (st : State) (b : Nat) (hk1 : 2 ≤ k) (hk2 : k ≤ 6)
    (he : st.rx_q_tail = st.rx_q_head) :
    dequeue_preempted k st b =
      (some (dequeue_rx_byte st).1, enqueue_rx_byte (dequeue_rx_byte st).2 b) := by
  have hd : dequeue_rx_byte st = (none, st) := dequeue_empty st he.symm
  rw [hd]
  unfold dequeue_preempted
  rw [deqSteps_empty k st hk1 hk2 he]
  dsimp only
  generalize enqueue_rx_byte st b = e
  interval_cases k <;> simp [deqSteps, deqStep]

/-- Preemption after the emptiness test found a byte and before `rx_q_tail` is written:
the result is that of the enqueue followed by the dequeue. -/
theorem dequeue_preempted_mid (k : Nat) (st : State) (b : Nat) (hk1 : 2 ≤ k) (hk2 : k ≤ 5)
    (hne : st.rx_q_tail ≠ st.rx_q_head) :
    dequeue_preempted k st b =
      (some (dequeue_rx_byte (enqueue_rx_byte st b)).1,
        (dequeue_rx_byte (enqueue_rx_byte st b)).2) := by
  have het := enqueue_tail st b
  have heh := enqueue_head_ne st b hne
  have hes := enqueue_slot st b hne
  obtain ⟨_, _, hpre⟩ := deqSteps_prefix st
  obtain ⟨h2, h3, h4, h5⟩ := hpre hne
  unfold dequeue_preempted
  interval_cases k
  · rw [h2]
    dsimp only
    generalize enqueue_rx_byte st b = e at het heh hes ⊢
    simp [deqSteps, deqStep, dequeue_rx_byte, het, heh]
  · rw [h3]
    dsimp only
    generalize enqueue_rx_byte st b = e at het heh hes ⊢
    simp [deqSteps, deqStep, dequeue_rx_byte, het, heh]
  · rw [h4]
    dsimp only
    generalize enqueue_rx_byte st b = e at het heh hes ⊢
    rw [← hes]
    simp [deqSteps, deqStep, dequeue_rx_byte, het, heh]
  · rw [h5]
    dsimp only
    generalize enqueue_rx_byte st b = e at het heh hes ⊢
    rw [← hes]
    simp [deqSteps, deqStep, dequeue_rx_byte, het, heh]

/-- Preemption after the last access: the enqueue follows the whole dequeue. -/
theorem dequeue_preempted_late (st : State) (b : Nat) :
    dequeue_preempted 6 st b =
      (some (dequeue_rx_byte st).1, enqueue_rx_byte (dequeue_rx_byte st).2 b) := by
  obtain ⟨h1, h2⟩ := deqSteps_uninterrupted st
  have e0 : ∀ (r : DeqRun) (s : State), deqSteps (6 - 6) r s = (r, s) := fun _ _ => rfl
  unfold dequeue_preempted
  rw [e0, h1, h2]

/-- A preempted dequeue behaves as one of the two sequential orders of the two calls. -/
theorem dequeue_preempted_sequential (k : Nat) (st : State) (b : Nat) (hk : k ≤ 6) :
    dequeue_preempted k st b =
      (some (dequeue_rx_byte (enqueue_rx_byte st b)).1,
        (dequeue_rx_byte (enqueue_rx_byte st b)).2) ∨
    dequeue_preempted k st b =
      (some (dequeue_rx_byte st).1, enqueue_rx_byte (dequeue_rx_byte st).2 b) := by
  by_cases h1 : k ≤ 1
  · exact Or.inl (dequeue_preempted_early k st b h1)
  · by_cases he : st.rx_q_tail = st.rx_q_head
    · exact Or.inr (dequeue_preempted_empty k st b (by omega) hk he)
    · by_cases h6 : k = 6
      · subst h6
        exact Or.inr (dequeue_preempted_late st b)
      · exact Or.inl (dequeue_preempted_mid k st b (by omega) (by omega) he)

/-- C15: one interrupt-context `enqueue_rx_byte(b)` call that preempts a mainline
`dequeue_rx_byte` call after any number `k` of its memory accesses (0 to 6: the reads of
`rx_q_tail` and `rx_q_head`, the read of the slot, the write of `rx_q_tail`) leaves the
dequeue result and the final state equal to those of one of the two sequential orders of
the two calls.  In terms of the FIFO list: the dequeue returns nothing from an empty
list or else its oldest byte, and the byte enqueued is appended once or, when 255 bytes
are held, dropped, exactly as in that sequential order. -/
theorem C15_preempted_dequeue_is_sequential (k : Nat) (st : State) (b : Nat)
    (hk : k ≤ 6) (hw : QueueWf st) :
    (dequeue_preempted k st b =
        (some (dequeue_rx_byte (enqueue_rx_byte st b)).1,
          (dequeue_rx_byte (enqueue_rx_byte st b)).2) ∨
      dequeue_preempted k st b =
        (some (dequeue_rx_byte st).1, enqueue_rx_byte (dequeue_rx_byte st).2 b)) ∧
    (∃ res st1, dequeue_preempted k st b = (some res, st1) ∧ QueueWf st1 ∧
      ((res, queueContents st1) = fifoDequeue (fifoEnqueue (queueContents st) b) ∨
        (res = (fifoDequeue (queueContents st)).1 ∧
          queueContents st1 = fifoEnqueue (fifoDequeue (queueContents st)).2 b))) := by
  have hseq := dequeue_preempted_sequential k st b hk
  refine ⟨hseq, ?_⟩
  rcases hseq with h | h
  · have hwe := queueWf_enqueue st b hw
    obtain ⟨h1, h2⟩ := dequeue_refines (enqueue_rx_byte st b) hwe
    refine ⟨_, _, h, queueWf_dequeue _ hwe, Or.inl ?_⟩
    rw [h1, h2, enqueue_refines st b hw]
  · have hwd := queueWf_dequeue st hw
    obtain ⟨h1, h2⟩ := dequeue_refines st hw
    refine ⟨_, _, h, queueWf_enqueue _ b hwd, Or.inr ⟨h1, ?_⟩⟩
    rw [enqueue_refines _ b hwd, h2]

theorem C15_witness :
    (3 : Nat) ≤ 6 ∧ QueueWf (enqueue_rx_byte State.init 5) ∧
    (dequeue_preempted 3 (enqueue_rx_byte State.init 5) 6 =
        (some (dequeue_rx_byte (enqueue_rx_byte (enqueue_rx_byte State.init 5) 6)).1,
          (dequeue_rx_byte (enqueue_rx_byte (enqueue_rx_byte State.init 5) 6)).2) ∨
      dequeue_preempted 3 (enqueue_rx_byte State.init 5) 6 =
        (some (dequeue_rx_byte (enqueue_rx_byte State.init 5)).1,
          enqueue_rx_byte (dequeue_rx_byte (enqueue_rx_byte State.init 5)).2 6)) :=
  ⟨by decide, queueWf_enqueue State.init 5 queueWf_init,
    (C15_preempted_dequeue_is_sequential 3 (enqueue_rx_byte State.init 5) 6 (by decide)
      (queueWf_enqueue State.init 5 queueWf_init)).1⟩

end UartFrame
